import Mathlib

set_option maxRecDepth 20000
set_option maxHeartbeats 1000000

/-!
Verification development for the assembly diff engine of the `ce-mcp`
repository (`src/ce_mcp/assembly_diff.py`).  Python strings are modelled as
`List Char`; the Python `str` primitives used by the source
(`splitlines`, `strip`, `split`, `lower`, `join`, slicing) are modelled
character by character over the ASCII/Latin-1 range that assembly listings
use.  The diff algorithm is the one the source delegates to: CPython
`difflib.SequenceMatcher` (with `isjunk=None` and `autojunk=True`) and
`difflib.unified_diff`; those are embedded below following the CPython
source.
-/

namespace CeMcp

abbrev Str := List Char

/-- Whitespace as recognised by Python `str.split` / `str.strip`
(ASCII range plus NEL and the Unicode line/paragraph separators). -/
def isPySpace (c : Char) : Bool :=
  c = ' ' || c = '\t' || c = '\n' || c = '\x0b' || c = '\x0c' || c = '\r' ||
  c = '\x1c' || c = '\x1d' || c = '\x1e' || c = '\x1f' || c = '\x85' ||
  c = ' ' || c = ' '

/-- Line boundaries as recognised by Python `str.splitlines`. -/
def isLineBreak (c : Char) : Bool :=
  c = '\n' || c = '\r' || c = '\x0b' || c = '\x0c' ||
  c = '\x1c' || c = '\x1d' || c = '\x1e' || c = '\x85' ||
  c = ' ' || c = ' '

/-- Python `str.splitlines()`: each line boundary ends a line, `\r\n`
counts as a single boundary, and a trailing boundary produces no final
empty line. -/
def pySplitlines : Str → List Str
  | [] => []
  | [c] => if isLineBreak c then [[]] else [[c]]
  | c :: d :: rest =>
    if c = '\r' && d = '\n' then [] :: pySplitlines rest
    else if isLineBreak c then [] :: pySplitlines (d :: rest)
    else
      match pySplitlines (d :: rest) with
      | [] => [[c]]
      | l :: ls => (c :: l) :: ls

/-- Python `str.rstrip()`. -/
def pyRstrip (s : Str) : Str := (s.reverse.dropWhile isPySpace).reverse

/-- Python `str.strip()`. -/
def pyStrip (s : Str) : Str := pyRstrip (s.dropWhile isPySpace)

/-- Python `str.split()` (split on whitespace runs, no empty chunks). -/
def pySplit : Str → List Str
  | [] => []
  | c :: rest =>
    if isPySpace c then pySplit rest
    else
      match rest, pySplit rest with
      | [], _ => [[c]]
      | d :: _, r =>
        if isPySpace d then [c] :: r
        else
          match r with
          | [] => [[c]]
          | w :: ws => (c :: w) :: ws

/-- Python `str.split(None, 1)`: first whitespace-run split only; the
remainder keeps its internal spacing (leading whitespace of the remainder
is consumed by the separator run). -/
def pySplit1 (s : Str) : List Str :=
  let s1 := s.dropWhile isPySpace
  if s1 = [] then []
  else
    let w := s1.takeWhile (fun c => !isPySpace c)
    let r := (s1.dropWhile (fun c => !isPySpace c)).dropWhile isPySpace
    if r = [] then [w] else [w, r]

/-- Python `str.lower()` restricted to ASCII (the only case mapping that
matters for assembly text): maps the letters A-Z to a-z and leaves every
other character unchanged. -/
def lowerPairs : List (Char × Char) :=
  [('A','a'),('B','b'),('C','c'),('D','d'),('E','e'),('F','f'),('G','g'),
   ('H','h'),('I','i'),('J','j'),('K','k'),('L','l'),('M','m'),('N','n'),
   ('O','o'),('P','p'),('Q','q'),('R','r'),('S','s'),('T','t'),('U','u'),
   ('V','v'),('W','w'),('X','x'),('Y','y'),('Z','z')]

def pyLowerChar (c : Char) : Char :=
  match lowerPairs.find? (fun p => p.1 = c) with
  | some p => p.2
  | none => c

def pyLower (s : Str) : Str := s.map pyLowerChar

/-- Python `sep.join(parts)`. -/
def joinSep (sep : Str) : List Str → Str
  | [] => []
  | [w] => w
  | w :: ws => w ++ sep ++ joinSep sep ws

/-- Python substring test `needle in hay`. -/
def containsSubstring (needle : Str) : Str → Bool
  | [] => needle.isPrefixOf []
  | c :: rest => needle.isPrefixOf (c :: rest) || containsSubstring needle rest

/-- Python list slicing `l[i1:i2]` for `0 ≤ i1 ≤ i2`. -/
def pySlice {α : Type} (l : List α) (i1 i2 : Nat) : List α :=
  (l.drop i1).take (i2 - i1)

/-- Decimal rendering of a natural number, for the f-string interpolations
in the source. -/
def natToChars (n : Nat) : Str := (Nat.repr n).toList

/-- `normalize_assembly` from `src/ce_mcp/assembly_diff.py`: drop
comment-only lines, truncate inline comments at the first `#` (with a
right-strip), drop blank lines, and collapse whitespace runs via
`" ".join(line.split())`. -/
def normalizeLine (line : Str) : Option Str :=
  if (pyStrip line).head? = some '#' then none
  else
    let line1 := if line.contains '#' then pyRstrip (line.takeWhile (fun c => c ≠ '#')) else line
    if pyStrip line1 = [] then none
    else some (joinSep [' '] (pySplit line1))

def normalize_assembly (asm_text : Str) : List Str :=
  (pySplitlines asm_text).filterMap normalizeLine

/-- First character of the regex `^[a-z][a-z0-9._]*$`. -/
def isLowerAlpha (c : Char) : Bool := 'a' ≤ c && c ≤ 'z'

/-- Continuation characters of the regex `^[a-z][a-z0-9._]*$`. -/
def isMnemonicRest (c : Char) : Bool :=
  isLowerAlpha c || ('0' ≤ c && c ≤ '9') || c = '.' || c = '_'

/-- Full-string match of the regex `^[a-z][a-z0-9._]*$` used by
`extract_instruction` (the matched token never contains a newline, so the
`$`-before-trailing-newline subtlety of `re` cannot arise). -/
def matchesMnemonic : Str → Bool
  | [] => false
  | c :: rest => isLowerAlpha c && rest.all isMnemonicRest

/-- `extract_instruction` from `src/ce_mcp/assembly_diff.py`. -/
def extract_instruction (line : Str) : Option Str :=
  let stripped := pyStrip line
  if stripped = [] then none
  else if stripped.getLast? = some ':' then none
  else if stripped.head? = some '.' then none
  else if stripped.head? = some '#' then none
  else
    match pySplit stripped with
    | [] => none
    | w :: _ =>
      let potential_instruction := pyLower w
      if matchesMnemonic potential_instruction && potential_instruction.length ≤ 10 then
        some potential_instruction
      else none

/-- The call-instruction set of `extract_function_call`. -/
def callInstructions : List Str :=
  ["call".toList, "bl".toList, "blx".toList, "jal".toList, "jalr".toList]

/-- `extract_function_call` from `src/ce_mcp/assembly_diff.py`. -/
def extract_function_call (line : Str) : Option Str :=
  let stripped := pyLower (pyStrip line)
  let parts := pySplit stripped
  if parts.length < 2 then none
  else
    match parts with
    | [] => none
    | instruction :: _ =>
      if callInstructions.contains instruction then
        let original_parts := pySplit1 (pyStrip line)
        match original_parts with
        | _ :: target :: _ =>
          if containsSubstring ("ptr".toList) (pyLower target) && target.contains '[' then
            some ("indirect_".toList ++ instruction)
          else
            let target2 :=
              if target.head? = some '[' && target.getLast? = some ']' then
                (target.drop 1).dropLast
              else target
            some target2
        | _ => none
      else none

/-!
Embedding of the parts of CPython `difflib` used by the source:
`SequenceMatcher(None, a, b)` (so `isjunk` is absent, `self.bjunk` is empty
and only the autojunk "popular" filter applies to `b2j`), its
`find_longest_match`, `get_matching_blocks`, `get_opcodes`,
`get_grouped_opcodes`, and `unified_diff`.
-/

/-- Ascending list of positions of `x` in `b`: the value `b2j[x]` built by
`SequenceMatcher.__chain_b` before the autojunk deletion. -/
def b2jIndices (b : List Str) (x : Str) : List Nat :=
  (List.range b.length).filter (fun j => b.getD j [] = x)

/-- The autojunk rule of `SequenceMatcher.__chain_b` (`isjunk=None`,
`autojunk=True`): with `len(b) >= 200`, elements occurring more than
`len(b) // 100 + 1` times are deleted from `b2j`. -/
def b2jGet (b : List Str) (x : Str) : List Nat :=
  if 200 ≤ b.length ∧ (b2jIndices b x).length > b.length / 100 + 1 then []
  else b2jIndices b x

/-- One step of the inner `for j in b2j.get(a[i], nothing)` loop of
`find_longest_match`.  The state is the fresh `newj2len` map (total
function, unset keys read as 0, as `dict.get(j-1, 0)`) and the current
best `(besti, bestj, bestsize)`; `j2lenOld` is the map of the previous
outer iteration. -/
def flmInnerStep (i : Nat) (j2lenOld : Nat → Nat)
    (st : (Nat → Nat) × (Nat × Nat × Nat)) (j : Nat) :
    (Nat → Nat) × (Nat × Nat × Nat) :=
  let k := (if j = 0 then 0 else j2lenOld (j - 1)) + 1
  let newmap := fun j2 => if j2 = j then k else st.1 j2
  if k > st.2.2.2 then (newmap, (i + 1 - k, j + 1 - k, k))
  else (newmap, st.2)

/-- One step of the outer `for i in range(alo, ahi)` loop of
`find_longest_match`; the `continue`/`break` pair on the ascending index
list is the filter `blo ≤ j < bhi`. -/
def flmOuterStep (a b : List Str) (blo bhi : Nat)
    (st : (Nat → Nat) × (Nat × Nat × Nat)) (i : Nat) :
    (Nat → Nat) × (Nat × Nat × Nat) :=
  let js := (b2jGet b (a.getD i [])).filter (fun j => blo ≤ j && j < bhi)
  js.foldl (flmInnerStep i st.1) ((fun _ => 0), st.2)

/-- The main scan of `find_longest_match`, before the extension loops. -/
def flmCore (a b : List Str) (alo ahi blo bhi : Nat) : Nat × Nat × Nat :=
  ((List.range' alo (ahi - alo)).foldl (flmOuterStep a b blo bhi)
    ((fun _ => 0), (alo, blo, 0))).2

/-- The backward extension loop of `find_longest_match` (`self.bjunk` is
empty, so only the non-junk loop can fire).  Structural recursion on
`besti`, which the loop decrements while `alo < besti`. -/
def extendBack (a b : List Str) (alo blo : Nat) :
    Nat → Nat → Nat → Nat × Nat × Nat
  | 0, bestj, bestsize => (0, bestj, bestsize)
  | besti + 1, bestj, bestsize =>
    if alo < besti + 1 ∧ blo < bestj ∧ a.getD besti [] = b.getD (bestj - 1) [] then
      extendBack a b alo blo besti (bestj - 1) (bestsize + 1)
    else (besti + 1, bestj, bestsize)

/-- The forward extension loop of `find_longest_match`, driven by the
exact bound `ahi - (besti + bestsize)` on its iteration count: when the
fuel is exhausted, `besti + bestsize = ahi` and the loop condition is
false anyway. -/
def extendFwdAux (a b : List Str) (ahi bhi besti bestj : Nat) :
    Nat → Nat → Nat
  | 0, bestsize => bestsize
  | fuel + 1, bestsize =>
    if besti + bestsize < ahi ∧ bestj + bestsize < bhi ∧
        a.getD (besti + bestsize) [] = b.getD (bestj + bestsize) [] then
      extendFwdAux a b ahi bhi besti bestj fuel (bestsize + 1)
    else bestsize

def extendFwd (a b : List Str) (ahi bhi besti bestj bestsize : Nat) : Nat :=
  extendFwdAux a b ahi bhi besti bestj (ahi - (besti + bestsize)) bestsize

/-- `SequenceMatcher.find_longest_match` on the window
`a[alo:ahi]`, `b[blo:bhi]`. -/
def find_longest_match (a b : List Str) (alo ahi blo bhi : Nat) :
    Nat × Nat × Nat :=
  let core := flmCore a b alo ahi blo bhi
  let back := extendBack a b alo blo core.1 core.2.1 core.2.2
  (back.1, back.2.1, extendFwd a b ahi bhi back.1 back.2.1 back.2.2)

/-- The recursive block collection of `get_matching_blocks` (the CPython
queue traversal, rebuilt recursively; emitting left subwindow, block,
right subwindow in order yields the blocks already sorted, matching the
`matching_blocks.sort()` in the source since block ranges are disjoint).
Fuel bounds the recursion depth: every recursive call strictly shrinks
`(ahi - alo) + (bhi - blo)`, so `a.length + b.length + 1` at the root
never runs out. -/
def matchingBlocksFuel (a b : List Str) :
    Nat → Nat → Nat → Nat → Nat → List (Nat × Nat × Nat)
  | 0, _, _, _, _ => []
  | fuel + 1, alo, ahi, blo, bhi =>
    let m := find_longest_match a b alo ahi blo bhi
    if m.2.2 = 0 then []
    else
      (if alo < m.1 ∧ blo < m.2.1 then
        matchingBlocksFuel a b fuel alo m.1 blo m.2.1
      else []) ++
      (m.1, m.2.1, m.2.2) ::
      (if m.1 + m.2.2 < ahi ∧ m.2.1 + m.2.2 < bhi then
        matchingBlocksFuel a b fuel (m.1 + m.2.2) ahi (m.2.1 + m.2.2) bhi
      else [])

/-- The adjacent-block collapsing loop of `get_matching_blocks`
(`i1 = j1 = k1 = 0` start, emit pending block when `k1` non-zero). -/
def mergeAdjAux : Nat → Nat → Nat → List (Nat × Nat × Nat) → List (Nat × Nat × Nat)
  | i1, j1, k1, [] => if k1 ≠ 0 then [(i1, j1, k1)] else []
  | i1, j1, k1, (i2, j2, k2) :: rest =>
    if i1 + k1 = i2 ∧ j1 + k1 = j2 then mergeAdjAux i1 j1 (k1 + k2) rest
    else (if k1 ≠ 0 then [(i1, j1, k1)] else []) ++ mergeAdjAux i2 j2 k2 rest

/-- `SequenceMatcher.get_matching_blocks`, including the terminal dummy
`(len(a), len(b), 0)`. -/
def get_matching_blocks (a b : List Str) : List (Nat × Nat × Nat) :=
  mergeAdjAux 0 0 0
    (matchingBlocksFuel a b (a.length + b.length + 1) 0 a.length 0 b.length) ++
  [(a.length, b.length, 0)]

inductive Tag where
  | replace
  | delete
  | insert
  | equal
deriving DecidableEq, Repr, Inhabited

structure Op where
  tag : Tag
  i1 : Nat
  i2 : Nat
  j1 : Nat
  j2 : Nat
deriving DecidableEq, Repr, Inhabited

/-- The accumulation loop of `get_opcodes` over the matching blocks. -/
def opcodesAux : Nat → Nat → List (Nat × Nat × Nat) → List Op
  | _, _, [] => []
  | i, j, (ai, bj, size) :: rest =>
    (if i < ai ∧ j < bj then [⟨Tag.replace, i, ai, j, bj⟩]
     else if i < ai then [⟨Tag.delete, i, ai, j, bj⟩]
     else if j < bj then [⟨Tag.insert, i, ai, j, bj⟩]
     else []) ++
    (if size ≠ 0 then [⟨Tag.equal, ai, ai + size, bj, bj + size⟩] else []) ++
    opcodesAux (ai + size) (bj + size) rest

/-- `SequenceMatcher.get_opcodes`. -/
def get_opcodes (a b : List Str) : List Op :=
  opcodesAux 0 0 (get_matching_blocks a b)

/-- The `codes[0]` fixup of `get_grouped_opcodes` (Python `max(i1, i2-n)`
agrees with `max` over truncated `Nat` subtraction since `i1 ≥ 0`). -/
def adjustFirst (n : Nat) : List Op → List Op
  | [] => []
  | op :: rest =>
    if op.tag = Tag.equal then
      ⟨op.tag, max op.i1 (op.i2 - n), op.i2, max op.j1 (op.j2 - n), op.j2⟩ :: rest
    else op :: rest

/-- The `codes[-1]` fixup of `get_grouped_opcodes`. -/
def adjustLast (n : Nat) : List Op → List Op
  | [] => []
  | [op] =>
    if op.tag = Tag.equal then
      [⟨op.tag, op.i1, min op.i2 (op.i1 + n), op.j1, min op.j2 (op.j1 + n)⟩]
    else [op]
  | op :: rest => op :: adjustLast n rest

/-- The grouping loop of `get_grouped_opcodes`: split at `equal` ranges
longer than `2 n`; a final group that is a single `equal` opcode is not
yielded. -/
def groupedLoop (n nn : Nat) (group : List Op) : List Op → List (List Op)
  | [] =>
    match group with
    | [] => []
    | [g] => if g.tag = Tag.equal then [] else [[g]]
    | _ => [group]
  | op :: rest =>
    if op.tag = Tag.equal ∧ op.i2 - op.i1 > nn then
      (group ++ [⟨op.tag, op.i1, min op.i2 (op.i1 + n), op.j1, min op.j2 (op.j1 + n)⟩]) ::
      groupedLoop n nn
        [⟨op.tag, max op.i1 (op.i2 - n), op.i2, max op.j1 (op.j2 - n), op.j2⟩] rest
    else groupedLoop n nn (group ++ [op]) rest

/-- `SequenceMatcher.get_grouped_opcodes(n)` (with the `[("equal",0,1,0,1)]`
substitution for an empty opcode list). -/
def get_grouped_opcodes (n : Nat) (a b : List Str) : List (List Op) :=
  let codes := get_opcodes a b
  let codes1 := if codes = [] then [⟨Tag.equal, 0, 1, 0, 1⟩] else codes
  let codes2 := adjustLast n (adjustFirst n codes1)
  groupedLoop n (n + n) [] codes2

/-- `difflib._format_range_unified`. -/
def formatRangeUnified (start stop : Nat) : Str :=
  let beginning := start + 1
  let length := stop - start
  if length = 1 then natToChars beginning
  else natToChars (if length = 0 then beginning - 1 else beginning) ++
       ',' :: natToChars length

/-- The per-group lines of `unified_diff` (the `@@` hunk header followed
by space/minus/plus prefixed content lines; `lineterm` is the empty
string in the source call). -/
def unifiedGroupLines (a b : List Str) (g : List Op) : List Str :=
  match g with
  | [] => []
  | f :: _ =>
    let l := g.getLastD f
    ("@@ -".toList ++ formatRangeUnified f.i1 l.i2 ++
     " +".toList ++ formatRangeUnified f.j1 l.j2 ++ " @@".toList) ::
    g.flatMap (fun op =>
      if op.tag = Tag.equal then (pySlice a op.i1 op.i2).map (fun s => ' ' :: s)
      else
        (if op.tag = Tag.replace ∨ op.tag = Tag.delete then
          (pySlice a op.i1 op.i2).map (fun s => '-' :: s)
        else []) ++
        (if op.tag = Tag.replace ∨ op.tag = Tag.insert then
          (pySlice b op.j1 op.j2).map (fun s => '+' :: s)
        else []))

/-- `difflib.unified_diff(a, b, fromfile, tofile, lineterm="", n)` as the
list of produced lines; the `---`/`+++` header pair is emitted once
before the first group and not at all when there are no groups. -/
def unified_diff (a b : List Str) (fromfile tofile : Str) (n : Nat) : List Str :=
  let groups := get_grouped_opcodes n a b
  if groups = [] then []
  else
    ("--- ".toList ++ fromfile) :: ("+++ ".toList ++ tofile) ::
    groups.flatMap (unifiedGroupLines a b)

/-- Deduplication keeping first occurrences, modelling the
`list(set(...))` calls in `analyze_diff`.  CPython set iteration order is
unspecified; the spec (section 4.4) declares the order arbitrary with
insertion order acceptable, which is what this picks. -/
def pyListSet : List Str → List Str := go []
where
  go (seen : List Str) : List Str → List Str
    | [] => []
    | x :: xs => if seen.contains x then go seen xs else x :: go (x :: seen) xs

/-- Python truthiness of an optional string (`if instruction:` /
`if call:` in `analyze_diff`): append only a non-None, non-empty value. -/
def pyTruthy : Option Str → List Str
  | none => []
  | some s => if s = [] then [] else [s]

/-- The statistics dictionary built by `analyze_diff` (seven keys
initialised up front, four `unique_*` keys added at the end). -/
structure DiffStats where
  lines_added : Nat
  lines_removed : Nat
  lines_changed : Nat
  instructions_added : List Str
  instructions_removed : List Str
  function_calls_added : List Str
  function_calls_removed : List Str
  unique_instructions_added : List Str
  unique_instructions_removed : List Str
  unique_calls_added : List Str
  unique_calls_removed : List Str
deriving DecidableEq, Repr

/-- The per-line body of the `for line in diff_lines` loop of
`analyze_diff`. -/
def analyzeStep (st : DiffStats) (line : Str) : DiffStats :=
  if (['+']).isPrefixOf line ∧ ¬ (['+', '+', '+']).isPrefixOf line then
    { st with
      lines_added := st.lines_added + 1,
      instructions_added :=
        st.instructions_added ++ pyTruthy (extract_instruction line.tail),
      function_calls_added :=
        st.function_calls_added ++ pyTruthy (extract_function_call line.tail) }
  else if (['-']).isPrefixOf line ∧ ¬ (['-', '-', '-']).isPrefixOf line then
    { st with
      lines_removed := st.lines_removed + 1,
      instructions_removed :=
        st.instructions_removed ++ pyTruthy (extract_instruction line.tail),
      function_calls_removed :=
        st.function_calls_removed ++ pyTruthy (extract_function_call line.tail) }
  else st

def analyzeInit : DiffStats :=
  ⟨0, 0, 0, [], [], [], [], [], [], [], []⟩

/-- `analyze_diff` from `src/ce_mcp/assembly_diff.py`. -/
def analyze_diff (diff_lines : List Str) : DiffStats :=
  let base := diff_lines.foldl analyzeStep analyzeInit
  { base with
    unique_instructions_added := pyListSet base.instructions_added,
    unique_instructions_removed := pyListSet base.instructions_removed,
    unique_calls_added := pyListSet base.function_calls_added,
    unique_calls_removed := pyListSet base.function_calls_removed }

/-- `generate_side_by_side` from `src/ce_mcp/assembly_diff.py`: the Python
loop appends rows per opcode into one list, modelled as a left fold with
append.  Out-of-range reads cannot occur on opcodes of
`get_opcodes lines1 lines2`; `List.getD` mirrors `lines1[i]` there. -/
def generate_side_by_side (lines1 lines2 : List Str) (max_width : Nat) :
    List (Str × Str) :=
  (get_opcodes lines1 lines2).foldl (fun acc op =>
    match op.tag with
    | Tag.equal => acc
    | Tag.replace =>
      acc ++ (List.range (max (op.i2 - op.i1) (op.j2 - op.j1))).map (fun i =>
        ((if op.i1 + i < op.i2 then lines1.getD (op.i1 + i) [] else []).take max_width,
         (if op.j1 + i < op.j2 then lines2.getD (op.j1 + i) [] else []).take max_width))
    | Tag.delete =>
      acc ++ (List.range' op.i1 (op.i2 - op.i1)).map (fun i =>
        ((lines1.getD i []).take max_width, []))
    | Tag.insert =>
      acc ++ (List.range' op.j1 (op.j2 - op.j1)).map (fun j =>
        ([], (lines2.getD j []).take max_width))) []

/-- One capped section of `generate_diff_summary`: list up to `cap`
items, and append an overflow marker when more exist. -/
def capSection (pre : Str) (cap : Nat) (items : List Str) : Str :=
  if items.length > cap then
    pre ++ joinSep (", ".toList) (items.take cap) ++
    " (+".toList ++ natToChars (items.length - cap) ++ " more)".toList
  else pre ++ joinSep (", ".toList) (items.take cap)

/-- `generate_diff_summary` from `src/ce_mcp/assembly_diff.py`
(`size_diff = len(lines2) - len(lines1)` with sign analysis, then the four
optional capped sections, joined by the three-character separator). -/
def generate_diff_summary (stats : DiffStats) (lines1 lines2 : List Str) : Str :=
  let sizePart : Str :=
    if lines1.length < lines2.length then
      "Second version is ".toList ++ natToChars (lines2.length - lines1.length) ++
      " lines longer".toList
    else if lines2.length < lines1.length then
      "Second version is ".toList ++ natToChars (lines1.length - lines2.length) ++
      " lines shorter".toList
    else "Both versions have the same number of lines".toList
  let parts :=
    [sizePart] ++
    (if stats.unique_instructions_added ≠ [] then
      [capSection ("New instructions: ".toList) 5 stats.unique_instructions_added]
     else []) ++
    (if stats.unique_instructions_removed ≠ [] then
      [capSection ("Removed instructions: ".toList) 5 stats.unique_instructions_removed]
     else []) ++
    (if stats.unique_calls_added ≠ [] then
      [capSection ("New function calls: ".toList) 3 stats.unique_calls_added]
     else []) ++
    (if stats.unique_calls_removed ≠ [] then
      [capSection ("Removed function calls: ".toList) 3 stats.unique_calls_removed]
     else [])
  joinSep (" | ".toList) parts

/-- The dictionary returned by `generate_assembly_diff`. -/
structure DiffResult where
  unified_diff : Str
  side_by_side : List (Str × Str)
  statistics : DiffStats
  summary : Str
deriving DecidableEq, Repr

/-- `generate_assembly_diff` from `src/ce_mcp/assembly_diff.py`.  The
Python defaults are `label1="Compiler 1"`, `label2="Compiler 2"`,
`context=3`; theorems instantiate them explicitly. -/
def generate_assembly_diff (asm1 asm2 label1 label2 : Str) (context : Nat) :
    DiffResult :=
  let lines1 := normalize_assembly asm1
  let lines2 := normalize_assembly asm2
  let diff_lines := unified_diff lines1 lines2 label1 label2 context
  let stats := analyze_diff diff_lines
  { unified_diff := joinSep ['\n'] diff_lines,
    side_by_side := generate_side_by_side lines1 lines2 50,
    statistics := stats,
    summary := generate_diff_summary stats lines1 lines2 }

def defaultLabel1 : Str := "Compiler 1".toList
def defaultLabel2 : Str := "Compiler 2".toList

/-- The operand text named by the spec for `extract_function_call`:
everything after the first whitespace run of the stripped line. -/
def operandText (s : Str) : Str :=
  ((pyStrip s).dropWhile (fun c => !isPySpace c)).dropWhile isPySpace

/-- The size section of the summary, written from the spec: state which
side is longer or shorter by how many lines, else the same-size sentence. -/
def specSizeSection (lines1 lines2 : List Str) : Str :=
  if lines2.length > lines1.length then
    "Second version is ".toList ++ natToChars (lines2.length - lines1.length) ++
    " lines longer".toList
  else if lines2.length < lines1.length then
    "Second version is ".toList ++ natToChars (lines1.length - lines2.length) ++
    " lines shorter".toList
  else "Both versions have the same number of lines".toList

/-- A capped summary section, written from the spec: omitted when empty,
up to `cap` items, and an overflow marker when more than `cap` exist. -/
def specCapped (pre : Str) (cap : Nat) (items : List Str) : Option Str :=
  if items = [] then none
  else
    some (pre ++ joinSep (", ".toList) (items.take cap) ++
      (if cap < items.length then
        " (+".toList ++ natToChars (items.length - cap) ++ " more)".toList
      else []))

/-- The whole summary template, written from the spec: the pipe-join of
the size section and the four optional capped sections, in order. -/
def specSummary (stats : DiffStats) (lines1 lines2 : List Str) : Str :=
  joinSep (" | ".toList) (List.filterMap id
    [some (specSizeSection lines1 lines2),
     specCapped ("New instructions: ".toList) 5 stats.unique_instructions_added,
     specCapped ("Removed instructions: ".toList) 5 stats.unique_instructions_removed,
     specCapped ("New function calls: ".toList) 3 stats.unique_calls_added,
     specCapped ("Removed function calls: ".toList) 3 stats.unique_calls_removed])

/-- A chain of matching blocks inside the window
`[ci, hi) x [cj, hj)`: blocks are in order, disjoint, and within bounds.
This is the invariant maintained by `get_matching_blocks`. -/
def BlocksChain : Nat → Nat → Nat → Nat → List (Nat × Nat × Nat) → Prop
  | _, _, _, _, [] => True
  | ci, hi, cj, hj, (i, j, k) :: rest =>
    ci ≤ i ∧ cj ≤ j ∧ i + k ≤ hi ∧ j + k ≤ hj ∧ BlocksChain (i + k) hi (j + k) hj rest

/-- The rows the side-by-side loop body of `generate_side_by_side`
produces for one opcode (the translation of the `for` body). -/
def sideRowsImpl (lines1 lines2 : List Str) (max_width : Nat) (op : Op) :
    List (Str × Str) :=
  match op.tag with
  | Tag.equal => []
  | Tag.replace =>
    (List.range (max (op.i2 - op.i1) (op.j2 - op.j1))).map (fun i =>
      ((if op.i1 + i < op.i2 then lines1.getD (op.i1 + i) [] else []).take max_width,
       (if op.j1 + i < op.j2 then lines2.getD (op.j1 + i) [] else []).take max_width))
  | Tag.delete =>
    (List.range' op.i1 (op.i2 - op.i1)).map (fun i =>
      ((lines1.getD i []).take max_width, []))
  | Tag.insert =>
    (List.range' op.j1 (op.j2 - op.j1)).map (fun j =>
      ([], (lines2.getD j []).take max_width))

/-- The rows for one opcode, written from the spec: `equal` emits
nothing; `replace` emits `max(left-length, right-length)` rows paired
index-by-index with the empty string on the exhausted side; `delete`
emits one left-only row per deleted line; `insert` one right-only row
per inserted line; each cell truncated to `max_width`. -/
def sideRowsSpec (lines1 lines2 : List Str) (max_width : Nat) (op : Op) :
    List (Str × Str) :=
  match op.tag with
  | Tag.equal => []
  | Tag.replace =>
    let L := pySlice lines1 op.i1 op.i2
    let R := pySlice lines2 op.j1 op.j2
    (List.range (max L.length R.length)).map (fun i =>
      ((L.getD i []).take max_width, (R.getD i []).take max_width))
  | Tag.delete =>
    (pySlice lines1 op.i1 op.i2).map (fun s => (s.take max_width, ([] : Str)))
  | Tag.insert =>
    (pySlice lines2 op.j1 op.j2).map (fun s => (([] : Str), s.take max_width))

/-- The `instructions_added` contribution of one content line `l` of the
second listing, as it passes through `analyze_diff` on the diff line
`'+' :: l`: a line itself starting with `++` turns the diff line into a
`+++` header and is skipped. -/
def diffAddInstr (l : Str) : List Str :=
  if (['+', '+'] : Str).isPrefixOf l = true then []
  else pyTruthy (extract_instruction l)

/-- The `instructions_removed` contribution of one content line `l` of the
first listing, via the diff line `'-' :: l` (a `--`-starting line becomes
a `---` header and is skipped). -/
def diffRemInstr (l : Str) : List Str :=
  if (['-', '-'] : Str).isPrefixOf l = true then []
  else pyTruthy (extract_instruction l)

/-! ### Theorems -/

/-- Auxiliary: a left fold with `analyzeStep` never touches the
`lines_changed` field. -/
theorem analyzeFold_lines_changed (dl : List Str) (st : DiffStats) :
    (dl.foldl analyzeStep st).lines_changed = st.lines_changed := by
  induction dl generalizing st with
  | nil => rfl
  | cons line rest ih =>
    rw [List.foldl_cons, ih]
    unfold analyzeStep
    split
    · rfl
    · split <;> rfl

/-- C4. Normalizer contract on the concrete input of end-to-end
scenario 1: comment-only lines dropped, inline comments truncated at the
first hash, empty lines dropped, whitespace runs collapsed, order kept. -/
theorem claim_C4_normalize_concrete :
    normalize_assembly ("  # comment\n  mov eax, 0  # inline\n\n  add ebx, 1\n    jmp    .L2   # x".toList) =
      ["mov eax, 0".toList, "add ebx, 1".toList, "jmp .L2".toList] := by
  decide

/-- C2. End-to-end pipeline correctness on the concrete pair of
end-to-end scenario 2: two lines added, two removed, `xor` among the
added mnemonics and `mov` among the removed ones. -/
theorem claim_C2_pipeline_concrete :
    (generate_assembly_diff ("push rbp\nmov eax, 0\npop rbp\nret".toList)
        ("push rbp\nxor eax, eax\nleave\nret".toList)
        defaultLabel1 defaultLabel2 3).statistics.lines_added = 2 ∧
    (generate_assembly_diff ("push rbp\nmov eax, 0\npop rbp\nret".toList)
        ("push rbp\nxor eax, eax\nleave\nret".toList)
        defaultLabel1 defaultLabel2 3).statistics.lines_removed = 2 ∧
    "xor".toList ∈ (generate_assembly_diff ("push rbp\nmov eax, 0\npop rbp\nret".toList)
        ("push rbp\nxor eax, eax\nleave\nret".toList)
        defaultLabel1 defaultLabel2 3).statistics.instructions_added ∧
    "mov".toList ∈ (generate_assembly_diff ("push rbp\nmov eax, 0\npop rbp\nret".toList)
        ("push rbp\nxor eax, eax\nleave\nret".toList)
        defaultLabel1 defaultLabel2 3).statistics.instructions_removed := by
  decide

/-- C3. Totality and graceful degradation on empty input: the engine is a
total function of its string inputs (no exceptional exit exists in the
model), and on two empty strings it returns an empty unified diff, an
empty side-by-side list, all-zero and all-empty statistics, and the
same-number-of-lines summary. -/
theorem claim_C3_total_and_empty :
    (∀ asm1 asm2 label1 label2 : Str, ∀ context : Nat,
      ∃ r : DiffResult, generate_assembly_diff asm1 asm2 label1 label2 context = r) ∧
    generate_assembly_diff [] [] defaultLabel1 defaultLabel2 3 =
      ⟨[], [], ⟨0, 0, 0, [], [], [], [], [], [], [], []⟩,
       "Both versions have the same number of lines".toList⟩ := by
  refine ⟨fun asm1 asm2 label1 label2 context => ⟨_, rfl⟩, ?_⟩
  decide

/-- C10. The `lines_changed` field is initialised to 0 by `analyze_diff`
and never updated on any code path, so every statistics record carries
`lines_changed = 0`. -/
theorem claim_C10_lines_changed_zero :
    (∀ diff_lines : List Str, (analyze_diff diff_lines).lines_changed = 0) ∧
    (∀ asm1 asm2 label1 label2 : Str, ∀ context : Nat,
      (generate_assembly_diff asm1 asm2 label1 label2 context).statistics.lines_changed = 0) := by
  have h : ∀ diff_lines : List Str, (analyze_diff diff_lines).lines_changed = 0 := by
    intro dl
    show (dl.foldl analyzeStep analyzeInit).lines_changed = 0
    rw [analyzeFold_lines_changed]
    rfl
  exact ⟨h, fun asm1 asm2 label1 label2 context => h _⟩

/-- C1, counterexample. Swapping two distinct instruction lines between
the listings makes the matcher keep different lines in the two diff
directions: `instructions_added` of (A,B) is `[xor]` while
`instructions_removed` of (B,A) is `[mov]`, so the claimed symmetry fails
already as a collection. -/
theorem claim_C1_counterexample :
    (generate_assembly_diff ("mov eax, 1\nxor ebx, ebx".toList)
        ("xor ebx, ebx\nmov eax, 1".toList)
        defaultLabel1 defaultLabel2 3).statistics.instructions_added = ["xor".toList] ∧
    (generate_assembly_diff ("xor ebx, ebx\nmov eax, 1".toList)
        ("mov eax, 1\nxor ebx, ebx".toList)
        defaultLabel1 defaultLabel2 3).statistics.instructions_removed = ["mov".toList] ∧
    (generate_assembly_diff ("mov eax, 1\nxor ebx, ebx".toList)
        ("xor ebx, ebx\nmov eax, 1".toList)
        defaultLabel1 defaultLabel2 3).statistics.instructions_added ≠
    (generate_assembly_diff ("xor ebx, ebx\nmov eax, 1".toList)
        ("mov eax, 1\nxor ebx, ebx".toList)
        defaultLabel1 defaultLabel2 3).statistics.instructions_removed := by
  refine ⟨by decide, by decide, ?_⟩
  intro h
  have h1 : (generate_assembly_diff ("mov eax, 1\nxor ebx, ebx".toList)
      ("xor ebx, ebx\nmov eax, 1".toList)
      defaultLabel1 defaultLabel2 3).statistics.instructions_added = ["xor".toList] := by decide
  have h2 : (generate_assembly_diff ("xor ebx, ebx\nmov eax, 1".toList)
      ("mov eax, 1\nxor ebx, ebx".toList)
      defaultLabel1 defaultLabel2 3).statistics.instructions_removed = ["mov".toList] := by decide
  rw [h1, h2] at h
  exact absurd h (by decide)

/-! ### String-primitive lemmas -/

theorem isPySpace_pyLowerChar (c : Char) : isPySpace (pyLowerChar c) = isPySpace c := by
  unfold pyLowerChar
  cases hf : lowerPairs.find? (fun p => p.1 = c) with
  | none => rfl
  | some p =>
    have hmem : p ∈ lowerPairs := List.mem_of_find?_eq_some hf
    have hpc : p.1 = c := by simpa using List.find?_some hf
    subst hpc
    fin_cases hmem <;> decide

theorem pySplit_nil : pySplit [] = [] := rfl

theorem pySplit_cons_space {c : Char} (s : Str) (h : isPySpace c = true) :
    pySplit (c :: s) = pySplit s := by
  cases s <;> simp [pySplit, h]

theorem pySplit_word : ∀ (s : Str) (c : Char), isPySpace c = false →
    pySplit (c :: s) =
      (c :: s.takeWhile (fun x => !isPySpace x)) ::
        pySplit (s.dropWhile (fun x => !isPySpace x)) := by
  intro s
  induction s with
  | nil => intro c hc; simp [pySplit, hc]
  | cons d t ih =>
    intro c hc
    by_cases hd : isPySpace d = true
    · simp [pySplit, hc, hd]
    · have hd' : isPySpace d = false := by simpa using hd
      have ihd := ih d hd'
      simp [pySplit, hc, hd'] at ihd ⊢
      rw [ihd]

theorem pySplit_all_space : ∀ s : Str, (∀ c ∈ s, isPySpace c = true) → pySplit s = [] := by
  intro s
  induction s with
  | nil => intro _; rfl
  | cons c t ih =>
    intro h
    rw [pySplit_cons_space t (h c (by simp))]
    exact ih (fun d hd => h d (by simp [hd]))

theorem pySplit_ne_nil_word (s : Str) (c : Char) (hc : isPySpace c = false) :
    pySplit (c :: s) ≠ [] := by
  rw [pySplit_word s c hc]; simp

theorem length_dropWhile_le (p : Char → Bool) (l : List Char) :
    (l.dropWhile p).length ≤ l.length := by
  induction l with
  | nil => exact Nat.le_refl _
  | cons c t ih =>
    rw [List.dropWhile_cons]
    by_cases hc : p c = true
    · rw [if_pos (by simpa using hc)]
      exact Nat.le_trans ih (Nat.le_succ _)
    · rw [if_neg (by simpa using hc)]

theorem takeWhile_nsp_append (t : Str) (ht : ∀ c ∈ t, isPySpace c = true) :
    ∀ s : Str, ((s ++ t).takeWhile (fun x => !isPySpace x)) = s.takeWhile (fun x => !isPySpace x) := by
  intro s
  induction s with
  | nil =>
    cases t with
    | nil => rfl
    | cons e t' => simp [List.takeWhile_cons, ht e (by simp)]
  | cons c s' ih =>
    by_cases hc : isPySpace c = true <;> simp [List.takeWhile_cons, hc, ih]

theorem dropWhile_nsp_append (t : Str) (ht : ∀ c ∈ t, isPySpace c = true) :
    ∀ s : Str, ((s ++ t).dropWhile (fun x => !isPySpace x)) = s.dropWhile (fun x => !isPySpace x) ++ t := by
  intro s
  induction s with
  | nil =>
    cases t with
    | nil => rfl
    | cons e t' => simp [List.dropWhile_cons, ht e (by simp)]
  | cons c s' ih =>
    by_cases hc : isPySpace c = true <;> simp [List.dropWhile_cons, hc, ih]

theorem pySplit_append_space_aux (t : Str) (ht : ∀ c ∈ t, isPySpace c = true) :
    ∀ n : Nat, ∀ s : Str, s.length ≤ n → pySplit (s ++ t) = pySplit s := by
  intro n
  induction n with
  | zero =>
    intro s hs
    have hs0 : s = [] := List.eq_nil_of_length_eq_zero (Nat.le_zero.mp hs)
    subst hs0
    simpa using pySplit_all_space t ht
  | succ n ih =>
    intro s hs
    match s with
    | [] => simpa using pySplit_all_space t ht
    | c :: s' =>
      by_cases hc : isPySpace c = true
      · rw [List.cons_append, pySplit_cons_space _ hc, pySplit_cons_space _ hc]
        exact ih s' (by simpa using Nat.le_of_succ_le_succ hs)
      · have hc' : isPySpace c = false := by simpa using hc
        rw [List.cons_append, pySplit_word _ c hc', pySplit_word _ c hc',
            takeWhile_nsp_append t ht s', dropWhile_nsp_append t ht s']
        have hlen : (s'.dropWhile (fun x => !isPySpace x)).length ≤ n := by
          have h1 := length_dropWhile_le (fun x => !isPySpace x) s'
          have h2 : s'.length ≤ n := by simpa using Nat.le_of_succ_le_succ hs
          omega
        rw [ih _ hlen]

theorem pySplit_append_space (t : Str) (ht : ∀ c ∈ t, isPySpace c = true) (s : Str) :
    pySplit (s ++ t) = pySplit s :=
  pySplit_append_space_aux t ht s.length s (Nat.le_refl _)

theorem pySplit_dropWhile (s : Str) : pySplit (s.dropWhile isPySpace) = pySplit s := by
  induction s with
  | nil => rfl
  | cons c t ih =>
    by_cases hc : isPySpace c = true
    · rw [List.dropWhile_cons, if_pos (by simpa using hc), ih, pySplit_cons_space t hc]
    · rw [List.dropWhile_cons, if_neg (by simpa using hc)]

theorem rstrip_decomp (u : Str) :
    ∃ t, u = pyRstrip u ++ t ∧ ∀ c ∈ t, isPySpace c = true := by
  refine ⟨(u.reverse.takeWhile isPySpace).reverse, ?_, ?_⟩
  · conv_lhs => rw [← List.reverse_reverse u,
      ← List.takeWhile_append_dropWhile isPySpace u.reverse]
    rw [List.reverse_append]
    rfl
  · intro c hc
    rw [List.mem_reverse] at hc
    exact List.mem_takeWhile_imp hc

theorem strip_decomp (s : Str) :
    ∃ t, s.dropWhile isPySpace = pyStrip s ++ t ∧ ∀ c ∈ t, isPySpace c = true :=
  rstrip_decomp (s.dropWhile isPySpace)

theorem pySplit_strip (s : Str) : pySplit (pyStrip s) = pySplit s := by
  obtain ⟨t, ht, hsp⟩ := strip_decomp s
  have h1 : pySplit (pyStrip s ++ t) = pySplit (pyStrip s) := pySplit_append_space t hsp _
  rw [← pySplit_dropWhile s, ht, h1]

theorem head_dropWhile_not (p : Char → Bool) :
    ∀ (l : List Char) (c : Char) (r : List Char), l.dropWhile p = c :: r → p c = false := by
  intro l
  induction l with
  | nil => intro c r h; simp at h
  | cons d l' ih =>
    intro c r h
    rw [List.dropWhile_cons] at h
    by_cases hd : p d = true
    · rw [if_pos (by simpa using hd)] at h
      exact ih c r h
    · rw [if_neg (by simpa using hd)] at h
      cases h
      simpa using hd

theorem strip_head_nonspace (s : Str) (c : Char) (t : Str)
    (h : pyStrip s = c :: t) : isPySpace c = false := by
  obtain ⟨t', ht', _⟩ := strip_decomp s
  rw [h] at ht'
  exact head_dropWhile_not isPySpace s c (t ++ t') (by simpa using ht')

theorem dropWhile_strip (s : Str) : (pyStrip s).dropWhile isPySpace = pyStrip s := by
  cases h : pyStrip s with
  | nil => rfl
  | cons c t =>
    rw [List.dropWhile_cons, if_neg]
    simpa using strip_head_nonspace s c t h

theorem takeWhile_nsp_lower (s : Str) :
    (pyLower s).takeWhile (fun x => !isPySpace x) =
      pyLower (s.takeWhile (fun x => !isPySpace x)) := by
  induction s with
  | nil => rfl
  | cons c t ih =>
    show (pyLowerChar c :: pyLower t).takeWhile (fun x => !isPySpace x) = _
    rw [List.takeWhile_cons, List.takeWhile_cons, isPySpace_pyLowerChar c]
    by_cases hc : isPySpace c = true
    · simp [hc]
      rfl
    · have hc' : isPySpace c = false := by simpa using hc
      simp only [hc', Bool.not_false, if_true]
      rw [ih]
      rfl

theorem dropWhile_nsp_lower (s : Str) :
    (pyLower s).dropWhile (fun x => !isPySpace x) =
      pyLower (s.dropWhile (fun x => !isPySpace x)) := by
  induction s with
  | nil => rfl
  | cons c t ih =>
    show (pyLowerChar c :: pyLower t).dropWhile (fun x => !isPySpace x) = _
    rw [List.dropWhile_cons, List.dropWhile_cons, isPySpace_pyLowerChar c]
    by_cases hc : isPySpace c = true
    · simp [hc]
      rfl
    · have hc' : isPySpace c = false := by simpa using hc
      simp only [hc', Bool.not_false, if_true]
      exact ih

theorem pySplit_map_lower_aux :
    ∀ n : Nat, ∀ s : Str, s.length ≤ n → pySplit (pyLower s) = (pySplit s).map pyLower := by
  intro n
  induction n with
  | zero =>
    intro s hs
    have hs0 : s = [] := List.eq_nil_of_length_eq_zero (Nat.le_zero.mp hs)
    subst hs0
    rfl
  | succ n ih =>
    intro s hs
    match s with
    | [] => rfl
    | c :: s' =>
      have hlc := isPySpace_pyLowerChar c
      by_cases hc : isPySpace c = true
      · rw [show pyLower (c :: s') = pyLowerChar c :: pyLower s' from rfl,
          pySplit_cons_space _ (by rw [hlc]; exact hc),
          pySplit_cons_space _ hc]
        exact ih s' (by simpa using Nat.le_of_succ_le_succ hs)
      · have hc' : isPySpace c = false := by simpa using hc
        rw [show pyLower (c :: s') = pyLowerChar c :: pyLower s' from rfl,
          pySplit_word (pyLower s') (pyLowerChar c) (by rw [hlc]; exact hc'),
          pySplit_word s' c hc']
        rw [takeWhile_nsp_lower, dropWhile_nsp_lower]
        have hlen : (s'.dropWhile (fun x => !isPySpace x)).length ≤ n := by
          have h1 := length_dropWhile_le (fun x => !isPySpace x) s'
          have h2 : s'.length ≤ n := by simpa using Nat.le_of_succ_le_succ hs
          omega
        rw [ih _ hlen]
        rfl

theorem pySplit_map_lower (s : Str) : pySplit (pyLower s) = (pySplit s).map pyLower :=
  pySplit_map_lower_aux s.length s (Nat.le_refl _)

/-- C6. `extract_instruction` postcondition: `None` on empty, label,
directive and comment lines; any returned string is the lowercased first
whitespace-delimited token of the input, matches `^[a-z][a-z0-9._]*$`,
and has length at most 10. -/
theorem claim_C6_extract_instruction (s : Str) :
    ((pyStrip s = [] ∨ (pyStrip s).getLast? = some ':' ∨
      (pyStrip s).head? = some '.' ∨ (pyStrip s).head? = some '#') →
      extract_instruction s = none) ∧
    (∀ t, extract_instruction s = some t →
      (∃ w ws, pySplit s = w :: ws ∧ t = pyLower w) ∧
      matchesMnemonic t = true ∧ t.length ≤ 10) := by
  constructor
  · intro h
    unfold extract_instruction
    by_cases h1 : pyStrip s = []
    · rw [if_pos h1]
    · rw [if_neg h1]
      by_cases h2 : (pyStrip s).getLast? = some ':'
      · rw [if_pos h2]
      · rw [if_neg h2]
        by_cases h3 : (pyStrip s).head? = some '.'
        · rw [if_pos h3]
        · rw [if_neg h3]
          by_cases h4 : (pyStrip s).head? = some '#'
          · rw [if_pos h4]
          · rcases h with h | h | h | h
            · exact absurd h h1
            · exact absurd h h2
            · exact absurd h h3
            · exact absurd h h4
  · intro t ht
    unfold extract_instruction at ht
    simp only [] at ht
    split at ht
    · exact absurd ht (by simp)
    · split at ht
      · exact absurd ht (by simp)
      · split at ht
        · exact absurd ht (by simp)
        · split at ht
          · exact absurd ht (by simp)
          · split at ht
            · exact absurd ht (by simp)
            · rename_i w ws heq
              split at ht
              · rename_i hcond
                rcases Option.some.inj ht with rfl
                have hcond' : matchesMnemonic (pyLower w) = true ∧ (pyLower w).length ≤ 10 := by
                  simpa using hcond
                refine ⟨⟨w, ws, ?_, rfl⟩, hcond'.1, hcond'.2⟩
                rw [← pySplit_strip s, heq]
              · exact absurd ht (by simp)

/-- Witness for C6: applied to `"MOV eax, 1"`, where `extract_instruction`
returns `some "mov"`, and to the label line `"label:"`, where it returns
`none`. -/
theorem claim_C6_witness :
    ((∃ w ws, pySplit ("MOV eax, 1".toList) = w :: ws ∧ "mov".toList = pyLower w) ∧
     matchesMnemonic ("mov".toList) = true ∧ ("mov".toList).length ≤ 10) ∧
    extract_instruction ("label:".toList) = none :=
  ⟨(claim_C6_extract_instruction ("MOV eax, 1".toList)).2 ("mov".toList) (by decide),
   (claim_C6_extract_instruction ("label:".toList)).1 (Or.inr (Or.inl (by decide)))⟩

theorem pySplit1_two_words (st : Str) (hdw : st.dropWhile isPySpace = st)
    (h2 : 2 ≤ (pySplit st).length) :
    pySplit1 st = [st.takeWhile (fun c => !isPySpace c),
                   (st.dropWhile (fun c => !isPySpace c)).dropWhile isPySpace] ∧
    (st.dropWhile (fun c => !isPySpace c)).dropWhile isPySpace ≠ [] := by
  cases hst : st with
  | nil => rw [hst] at h2; simp [pySplit] at h2
  | cons c t =>
    have hc : isPySpace c = false := by
      rw [hst] at hdw
      by_cases h : isPySpace c = true
      · rw [List.dropWhile_cons, if_pos (by simpa using h)] at hdw
        have hlen := congrArg List.length hdw
        have hle := length_dropWhile_le isPySpace t
        simp at hlen
        omega
      · simpa using h
    have hword := pySplit_word t c hc
    rw [hst] at h2
    rw [hword] at h2
    have htail : pySplit (t.dropWhile (fun x => !isPySpace x)) ≠ [] := by
      intro hnil
      rw [hnil] at h2
      simp at h2
    have hdwc : (c :: t).dropWhile (fun x => !isPySpace x) =
        t.dropWhile (fun x => !isPySpace x) := by
      rw [List.dropWhile_cons, if_pos (by simp [hc])]
    have hrne : ((c :: t).dropWhile (fun x => !isPySpace x)).dropWhile isPySpace ≠ [] := by
      intro h0
      apply htail
      rw [← pySplit_dropWhile (t.dropWhile (fun x => !isPySpace x)), ← hdwc, h0]
      rfl
    refine ⟨?_, hrne⟩
    unfold pySplit1
    simp only []
    rw [show (c :: t).dropWhile isPySpace = c :: t from by
          rw [List.dropWhile_cons, if_neg (by simp [hc])]]
    rw [if_neg (by simp), if_neg hrne]

/-- C7. `extract_function_call` behaviour: a result exists only when the
lowercased stripped line has at least two whitespace tokens whose first is
one of `call`, `bl`, `blx`, `jal`, `jalr`; in that case the result is the
`indirect_` sentinel when the operand mentions `ptr` (case-insensitively)
together with `[`, and is otherwise the original-case operand text with
one enclosing bracket pair stripped; concretely,
`call QWORD PTR [rax]` collapses to `indirect_call` and
`call std::vector<int>::size()` keeps its case. -/
theorem claim_C7_extract_function_call (s : Str) :
    (∀ r, extract_function_call s = some r →
      2 ≤ (pySplit (pyLower (pyStrip s))).length ∧
      ∃ w ws, pySplit (pyLower (pyStrip s)) = w :: ws ∧ w ∈ callInstructions) ∧
    (∀ w ws, pySplit (pyLower (pyStrip s)) = w :: ws → ws ≠ [] →
      w ∈ callInstructions →
      extract_function_call s = some (
        if containsSubstring ("ptr".toList) (pyLower (operandText s)) &&
            (operandText s).contains '[' then
          "indirect_".toList ++ w
        else if (operandText s).head? = some '[' && (operandText s).getLast? = some ']' then
          ((operandText s).drop 1).dropLast
        else operandText s)) ∧
    extract_function_call ("call QWORD PTR [rax]".toList) = some ("indirect_call".toList) ∧
    extract_function_call ("call std::vector<int>::size()".toList) =
      some ("std::vector<int>::size()".toList) := by
  refine ⟨?_, ?_, by decide, by decide⟩
  · intro r hr
    unfold extract_function_call at hr
    simp only [] at hr
    split at hr
    · exact absurd hr (by simp)
    · rename_i hlen
      split at hr
      · exact absurd hr (by simp)
      · rename_i instruction rest heq
        split at hr
        · rename_i hcont
          exact ⟨by omega, instruction, rest, heq, by simpa using hcont⟩
        · exact absurd hr (by simp)
  · intro w ws hsplit hws hmem
    have hmap : (pySplit (pyStrip s)).map pyLower = w :: ws :=
      (pySplit_map_lower (pyStrip s)).symm.trans hsplit
    cases hps : pySplit (pyStrip s) with
    | nil => rw [hps] at hmap; simp at hmap
    | cons w' ws' =>
      rw [hps] at hmap
      simp only [List.map_cons, List.cons.injEq] at hmap
      obtain ⟨hw, hwsmap⟩ := hmap
      have hws'ne : ws' ≠ [] := by
        intro h0
        rw [h0] at hwsmap
        exact hws (by simpa using hwsmap.symm)
      have h2 : 2 ≤ (pySplit (pyStrip s)).length := by
        rw [hps]
        have := List.length_pos.mpr hws'ne
        simp
        omega
      have hkey := pySplit1_two_words (pyStrip s) (dropWhile_strip s) h2
      have hcontains : callInstructions.contains w = true := by simpa using hmem
      unfold extract_function_call operandText
      simp only []
      rw [hsplit]
      rw [if_neg (by
        have := List.length_pos.mpr hws
        simp
        omega)]
      simp only []
      rw [if_pos hcontains, hkey.1]
      simp only []
      by_cases hA : (containsSubstring ("ptr".toList)
          (pyLower (((pyStrip s).dropWhile (fun c => !isPySpace c)).dropWhile isPySpace)) &&
          (((pyStrip s).dropWhile (fun c => !isPySpace c)).dropWhile isPySpace).contains '[') = true
      · rw [if_pos hA, if_pos hA]
      · rw [if_neg hA, if_neg hA]

/-- Witness for C7: applied to `"bl printf"`, whose lowercased stripped
form has the two tokens `bl` and `printf`, producing the operand text. -/
theorem claim_C7_witness :
    extract_function_call ("bl printf".toList) = some ("printf".toList) := by
  have h := (claim_C7_extract_function_call ("bl printf".toList)).2.1
      ("bl".toList) (["printf".toList]) (by decide) (by decide) (by decide)
  rw [h]
  decide

/-! ### Lemmas towards idempotence of normalization (C5) -/

theorem isPySpace_of_isLineBreak (c : Char) (h : isLineBreak c = true) :
    isPySpace c = true := by
  unfold isLineBreak at h
  simp only [Bool.or_eq_true, decide_eq_true_eq] at h
  casesm* _ ∨ _
  all_goals (rename_i h; subst h; decide)

theorem pySplit_words_aux :
    ∀ n : Nat, ∀ s : Str, s.length ≤ n → ∀ w ∈ pySplit s,
      w ≠ [] ∧ ∀ c ∈ w, isPySpace c = false ∧ c ∈ s := by
  intro n
  induction n with
  | zero =>
    intro s hs
    have hs0 : s = [] := List.eq_nil_of_length_eq_zero (Nat.le_zero.mp hs)
    subst hs0
    intro w hw
    simp [pySplit] at hw
  | succ n ih =>
    intro s hs w hw
    match s with
    | [] => simp [pySplit] at hw
    | c :: s' =>
      by_cases hc : isPySpace c = true
      · rw [pySplit_cons_space s' hc] at hw
        have := ih s' (by simpa using Nat.le_of_succ_le_succ hs) w hw
        exact ⟨this.1, fun d hd => ⟨(this.2 d hd).1, by simp [(this.2 d hd).2]⟩⟩
      · have hc' : isPySpace c = false := by simpa using hc
        rw [pySplit_word s' c hc'] at hw
        rcases List.mem_cons.mp hw with hw | hw
        · subst hw
          refine ⟨by simp, fun d hd => ?_⟩
          rcases List.mem_cons.mp hd with hd | hd
          · subst hd; exact ⟨hc', by simp⟩
          · refine ⟨by simpa using List.mem_takeWhile_imp hd, ?_⟩
            have : d ∈ s' := (List.takeWhile_sublist _).subset hd
            simp [this]
        · have hlen : (s'.dropWhile (fun x => !isPySpace x)).length ≤ n := by
            have h1 := length_dropWhile_le (fun x => !isPySpace x) s'
            have h2 : s'.length ≤ n := by simpa using Nat.le_of_succ_le_succ hs
            omega
          have := ih _ hlen w hw
          refine ⟨this.1, fun d hd => ⟨(this.2 d hd).1, ?_⟩⟩
          have : d ∈ s' := (List.dropWhile_sublist _).subset (this.2 d hd).2
          simp [this]

theorem pySplit_words (s : Str) :
    ∀ w ∈ pySplit s, w ≠ [] ∧ ∀ c ∈ w, isPySpace c = false ∧ c ∈ s :=
  pySplit_words_aux s.length s (Nat.le_refl _)

theorem pySplit_eq_nil_all_space :
    ∀ s : Str, pySplit s = [] → ∀ c ∈ s, isPySpace c = true := by
  intro s
  induction s with
  | nil => intro _ c hc; simp at hc
  | cons c s' ih =>
    intro h d hd
    by_cases hc : isPySpace c = true
    · rw [pySplit_cons_space s' hc] at h
      rcases List.mem_cons.mp hd with hd | hd
      · subst hd; exact hc
      · exact ih h d hd
    · have hc' : isPySpace c = false := by simpa using hc
      rw [pySplit_word s' c hc'] at h
      simp at h

theorem pyStrip_eq_nil_of_pySplit_eq_nil (s : Str) (h : pySplit s = []) :
    pyStrip s = [] := by
  have hall := pySplit_eq_nil_all_space s h
  have hdw : s.dropWhile isPySpace = [] := by
    rw [List.dropWhile_eq_nil_iff]
    intro c hc
    simpa using hall c hc
  unfold pyStrip
  rw [hdw]
  rfl

theorem takeWhile_all_append (p : Char → Bool) :
    ∀ (t : Str), (∀ c ∈ t, p c = true) → ∀ s : Str,
      (t ++ s).takeWhile p = t ++ s.takeWhile p := by
  intro t ht
  induction t with
  | nil => intro s; rfl
  | cons c t' ih =>
    intro s
    rw [List.cons_append, List.takeWhile_cons, if_pos (by simpa using ht c (by simp))]
    rw [ih (fun d hd => ht d (by simp [hd])) s]
    rfl

theorem dropWhile_all_append (p : Char → Bool) :
    ∀ (t : Str), (∀ c ∈ t, p c = true) → ∀ s : Str,
      (t ++ s).dropWhile p = s.dropWhile p := by
  intro t ht
  induction t with
  | nil => intro s; rfl
  | cons c t' ih =>
    intro s
    rw [List.cons_append, List.dropWhile_cons, if_pos (by simpa using ht c (by simp))]
    exact ih (fun d hd => ht d (by simp [hd])) s

theorem pySplit_single_word (w : Str) (hne : w ≠ [])
    (hns : ∀ c ∈ w, isPySpace c = false) : pySplit w = [w] := by
  match w with
  | [] => exact absurd rfl hne
  | c :: t =>
    rw [pySplit_word t c (hns c (by simp))]
    have htake : t.takeWhile (fun x => !isPySpace x) = t := by
      rw [List.takeWhile_eq_self_iff]
      intro d hd
      simp [hns d (by simp [hd])]
    have hdrop : t.dropWhile (fun x => !isPySpace x) = [] := by
      rw [List.dropWhile_eq_nil_iff]
      intro d hd
      simp [hns d (by simp [hd])]
    rw [htake, hdrop]
    rfl

theorem pySplit_word_front (w : Str) (hne : w ≠ [])
    (hns : ∀ c ∈ w, isPySpace c = false) (d : Char) (t : Str)
    (hd : isPySpace d = true) :
    pySplit (w ++ d :: t) = w :: pySplit (d :: t) := by
  match w with
  | [] => exact absurd rfl hne
  | c :: w' =>
    rw [List.cons_append, pySplit_word (w' ++ d :: t) c (hns c (by simp))]
    have hw' : ∀ x ∈ w', (fun x => !isPySpace x) x = true := by
      intro x hx
      simp [hns x (by simp [hx])]
    rw [takeWhile_all_append _ w' hw', dropWhile_all_append _ w' hw']
    rw [List.takeWhile_cons, if_neg (by simp [hd]), List.dropWhile_cons,
      if_neg (by simp [hd])]
    rw [List.append_nil]

theorem joinSep_cons_cons (sep w v : Str) (rest : List Str) :
    joinSep sep (w :: v :: rest) = w ++ (sep ++ joinSep sep (v :: rest)) := by
  show w ++ sep ++ joinSep sep (v :: rest) = _
  rw [List.append_assoc]

theorem pySplit_joinSep (ws : List Str)
    (h : ∀ w ∈ ws, w ≠ [] ∧ ∀ c ∈ w, isPySpace c = false) :
    pySplit (joinSep [' '] ws) = ws := by
  induction ws with
  | nil => rfl
  | cons w rest ih =>
    cases rest with
    | nil =>
      show pySplit w = [w]
      exact pySplit_single_word w (h w (by simp)).1 (h w (by simp)).2
    | cons w' rest' =>
      rw [joinSep_cons_cons]
      rw [show ([' '] : Str) ++ joinSep [' '] (w' :: rest') = ' ' :: joinSep [' '] (w' :: rest')
        from rfl]
      rw [pySplit_word_front w (h w (by simp)).1 (h w (by simp)).2 ' '
        (joinSep [' '] (w' :: rest')) (by decide)]
      rw [pySplit_cons_space _ (by decide)]
      rw [ih (fun v hv => h v (by simp [hv]))]

theorem mem_joinSep (sep : Str) :
    ∀ (ws : List Str) (c : Char), c ∈ joinSep sep ws →
      (∃ w ∈ ws, c ∈ w) ∨ c ∈ sep := by
  intro ws
  induction ws with
  | nil => intro c hc; simp [joinSep] at hc
  | cons w rest ih =>
    intro c hc
    cases rest with
    | nil => exact Or.inl ⟨w, by simp, hc⟩
    | cons w' rest' =>
      rw [joinSep_cons_cons, ← List.append_assoc] at hc
      rcases List.mem_append.mp hc with hc | hc
      · rcases List.mem_append.mp hc with hc | hc
        · exact Or.inl ⟨w, by simp, hc⟩
        · exact Or.inr hc
      · rcases ih c hc with ⟨v, hv, hcv⟩ | hc
        · exact Or.inl ⟨v, by simp [hv], hcv⟩
        · exact Or.inr hc

theorem joinSep_head (sep : Str) (w : Str) (ws : List Str) (c : Char) (t : Str)
    (hw : w = c :: t) : ∃ r, joinSep sep (w :: ws) = c :: r := by
  cases ws with
  | nil => exact ⟨t, by simp [joinSep, hw]⟩
  | cons w' rest =>
    refine ⟨t ++ sep ++ joinSep sep (w' :: rest), ?_⟩
    rw [show joinSep sep (w :: w' :: rest) = w ++ sep ++ joinSep sep (w' :: rest) from rfl, hw]
    simp

theorem joinSep_getLast (sep : Str) :
    ∀ (ws : List Str) (w : Str), w ∈ ws → w ≠ [] → ws.getLast? = some w →
      (joinSep sep ws).getLast? = w.getLast? := by
  intro ws
  induction ws with
  | nil => intro w hw; simp at hw
  | cons v rest ih =>
    intro w hw hwne hlast
    cases rest with
    | nil =>
      simp at hlast
      subst hlast
      rfl
    | cons v' rest' =>
      have hlast' : (v' :: rest').getLast? = some w := by
        rwa [List.getLast?_cons_cons] at hlast
      have hwmem : w ∈ v' :: rest' :=
        List.mem_of_mem_getLast? (Option.mem_def.mpr hlast')
      rw [joinSep_cons_cons]
      have hjoin_ne : joinSep sep (v' :: rest') ≠ [] := by
        intro h0
        have := ih w hwmem hwne hlast'
        rw [h0] at this
        simp at this
        exact hwne (by
          cases hw2 : w.getLast? with
          | none => cases w with
            | nil => rfl
            | cons a b => rw [List.getLast?_eq_getLast _ (by simp)] at hw2; simp at hw2
          | some a => rw [hw2] at this; simp at this)
      have hsep_ne : sep ++ joinSep sep (v' :: rest') ≠ [] := by
        intro h0
        rcases List.append_eq_nil.mp h0 with ⟨_, h2⟩
        exact hjoin_ne h2
      rw [List.getLast?_append_of_ne_nil v hsep_ne,
          List.getLast?_append_of_ne_nil sep hjoin_ne,
          ih w hwmem hwne hlast']

theorem pySplitlines_single :
    ∀ l : Str, l ≠ [] → (∀ c ∈ l, isLineBreak c = false) → pySplitlines l = [l] := by
  intro l
  induction l with
  | nil => intro h; exact absurd rfl h
  | cons c l' ih =>
    intro _ hnb
    have hc : isLineBreak c = false := hnb c (by simp)
    cases l' with
    | nil => simp [pySplitlines, hc]
    | cons d t =>
      have hcr : (c = '\r') = False := by
        simp only [eq_iff_iff, iff_false]
        intro h0
        subst h0
        simp [isLineBreak] at hc
      have hrec : pySplitlines (d :: t) = [d :: t] :=
        ih (by simp) (fun e he => hnb e (by simp [he]))
      simp [pySplitlines, hc, hcr, hrec]

theorem pySplitlines_append (l : Str) (hl : ∀ c ∈ l, isLineBreak c = false) (s : Str) :
    pySplitlines (l ++ '\n' :: s) = l :: pySplitlines s := by
  induction l with
  | nil =>
    cases s with
    | nil => decide
    | cons e t => simp [pySplitlines, isLineBreak]
  | cons c l' ih =>
    have hc : isLineBreak c = false := hl c (by simp)
    have hcr : (c = '\r') = False := by
      simp only [eq_iff_iff, iff_false]
      intro h0
      subst h0
      simp [isLineBreak] at hc
    have ih' := ih (fun e he => hl e (by simp [he]))
    cases l' with
    | nil =>
      simp only [List.nil_append] at ih'
      simp [pySplitlines, hc, hcr, ih']
    | cons d t =>
      simp only [List.cons_append] at ih' ⊢
      simp [pySplitlines, hc, hcr, ih']

theorem pySplitlines_joinSep :
    ∀ ls : List Str, (∀ l ∈ ls, l ≠ [] ∧ ∀ c ∈ l, isLineBreak c = false) →
      pySplitlines (joinSep ['\n'] ls) = ls := by
  intro ls
  induction ls with
  | nil => intro _; rfl
  | cons l rest ih =>
    intro h
    cases rest with
    | nil => exact pySplitlines_single l (h l (by simp)).1 (h l (by simp)).2
    | cons l' rest' =>
      rw [joinSep_cons_cons]
      rw [show (['\n'] : Str) ++ joinSep ['\n'] (l' :: rest') =
        '\n' :: joinSep ['\n'] (l' :: rest') from rfl]
      rw [pySplitlines_append l (h l (by simp)).2]
      rw [ih (fun v hv => h v (by simp [hv]))]

theorem normalize_shape (x : Str) :
    ∀ l ∈ normalize_assembly x, ∃ ws, ws ≠ [] ∧
      (∀ w ∈ ws, w ≠ [] ∧ ∀ c ∈ w, isPySpace c = false ∧ c ≠ '#') ∧
      l = joinSep [' '] ws := by
  intro l hmem
  obtain ⟨line, _, hf⟩ := List.mem_filterMap.mp hmem
  unfold normalizeLine at hf
  simp only [] at hf
  by_cases hhash : (pyStrip line).head? = some '#'
  · rw [if_pos hhash] at hf
    exact absurd hf (by simp)
  · rw [if_neg hhash] at hf
    have main : ∀ line1 : Str, pyStrip line1 ≠ [] → '#' ∉ line1 →
        l = joinSep [' '] (pySplit line1) →
        ∃ ws, ws ≠ [] ∧ (∀ w ∈ ws, w ≠ [] ∧ ∀ c ∈ w, isPySpace c = false ∧ c ≠ '#') ∧
          l = joinSep [' '] ws := by
      intro line1 hstrip hnohash hl
      refine ⟨pySplit line1, ?_, ?_, hl⟩
      · intro h0
        exact hstrip (pyStrip_eq_nil_of_pySplit_eq_nil _ h0)
      · intro w hw
        have hprops := pySplit_words line1 w hw
        refine ⟨hprops.1, fun c hc => ⟨(hprops.2 c hc).1, ?_⟩⟩
        intro h0
        subst h0
        exact hnohash (hprops.2 '#' hc).2
    by_cases hcont : line.contains '#' = true
    · rw [if_pos hcont] at hf
      by_cases hstrip : pyStrip (pyRstrip (line.takeWhile (fun c => c ≠ '#'))) = []
      · rw [if_pos hstrip] at hf
        exact absurd hf (by simp)
      · rw [if_neg hstrip] at hf
        refine main _ hstrip ?_ (Option.some.inj hf).symm
        intro hcmem
        obtain ⟨t', ht', _⟩ := rstrip_decomp (line.takeWhile (fun c => c ≠ '#'))
        have hmem2 : '#' ∈ line.takeWhile (fun c => c ≠ '#') := by
          rw [ht']
          exact List.mem_append_left _ hcmem
        simpa using List.mem_takeWhile_imp hmem2
    · rw [if_neg hcont] at hf
      by_cases hstrip : pyStrip line = []
      · rw [if_pos hstrip] at hf
        exact absurd hf (by simp)
      · rw [if_neg hstrip] at hf
        refine main _ hstrip ?_ (Option.some.inj hf).symm
        intro hcmem
        exact hcont (by simpa using hcmem)

theorem strip_join_self (ws : List Str) (hne : ws ≠ [])
    (h : ∀ w ∈ ws, w ≠ [] ∧ ∀ c ∈ w, isPySpace c = false) :
    pyStrip (joinSep [' '] ws) = joinSep [' '] ws := by
  obtain ⟨w, rest, rfl⟩ : ∃ w rest, ws = w :: rest := by
    cases ws with
    | nil => exact absurd rfl hne
    | cons w rest => exact ⟨w, rest, rfl⟩
  obtain ⟨c, t, hw⟩ : ∃ c t, w = c :: t := by
    cases hw0 : w with
    | nil => exact absurd hw0 (h w (by simp)).1
    | cons c t => exact ⟨c, t, rfl⟩
  obtain ⟨r, hr⟩ := joinSep_head [' '] w rest c t hw
  have hchead : isPySpace c = false := (h w (by simp)).2 c (by simp [hw])
  -- the last character of the joined line is the last character of the
  -- last word, which is not whitespace
  have hlast_word : (w :: rest).getLast? = some ((w :: rest).getLast (by simp)) :=
    List.getLast?_eq_getLast _ _
  set wl := (w :: rest).getLast (by simp) with hwl
  have hwl_mem : wl ∈ w :: rest := List.getLast_mem _
  have hwl_ne : wl ≠ [] := (h wl hwl_mem).1
  have hjl : (joinSep [' '] (w :: rest)).getLast? = wl.getLast? :=
    joinSep_getLast [' '] (w :: rest) wl hwl_mem hwl_ne hlast_word
  obtain ⟨cl, hcl⟩ : ∃ cl, wl.getLast? = some cl := by
    cases hw0 : wl with
    | nil => exact absurd hw0 hwl_ne
    | cons a b => exact ⟨_, List.getLast?_eq_getLast _ (by simp)⟩
  have hcl_mem : cl ∈ wl := List.mem_of_mem_getLast? (Option.mem_def.mpr hcl)
  have hcl_ns : isPySpace cl = false := (h wl hwl_mem).2 cl hcl_mem
  unfold pyStrip pyRstrip
  rw [show (joinSep [' '] (w :: rest)).dropWhile isPySpace = joinSep [' '] (w :: rest) from by
    rw [hr, List.dropWhile_cons, if_neg (by simp [hchead])]]
  rw [show (joinSep [' '] (w :: rest)).reverse.dropWhile isPySpace =
      (joinSep [' '] (w :: rest)).reverse from by
    cases hrev : (joinSep [' '] (w :: rest)).reverse with
    | nil => rfl
    | cons a b =>
      have : (joinSep [' '] (w :: rest)).reverse.head? = some cl := by
        rw [List.head?_reverse, hjl, hcl]
      rw [hrev] at this
      simp at this
      subst this
      rw [List.dropWhile_cons, if_neg (by simp [hcl_ns])]]
  exact List.reverse_reverse _

theorem normalizeLine_of_shape (ws : List Str) (hne : ws ≠ [])
    (h : ∀ w ∈ ws, w ≠ [] ∧ ∀ c ∈ w, isPySpace c = false ∧ c ≠ '#') :
    normalizeLine (joinSep [' '] ws) = some (joinSep [' '] ws) := by
  have h' : ∀ w ∈ ws, w ≠ [] ∧ ∀ c ∈ w, isPySpace c = false :=
    fun w hw => ⟨(h w hw).1, fun c hc => ((h w hw).2 c hc).1⟩
  have hstrip := strip_join_self ws hne h'
  have hnohash : '#' ∉ joinSep [' '] ws := by
    intro hmem
    rcases mem_joinSep [' '] ws '#' hmem with ⟨w, hw, hcw⟩ | hc'
    · exact ((h w hw).2 '#' hcw).2 rfl
    · simp at hc'
  obtain ⟨w, rest, rfl⟩ : ∃ w rest, ws = w :: rest := by
    cases ws with
    | nil => exact absurd rfl hne
    | cons w rest => exact ⟨w, rest, rfl⟩
  obtain ⟨c, t, hw⟩ : ∃ c t, w = c :: t := by
    cases hw0 : w with
    | nil => exact absurd hw0 (h w (by simp)).1
    | cons c t => exact ⟨c, t, rfl⟩
  obtain ⟨r, hr⟩ := joinSep_head [' '] w rest c t hw
  have hchash : c ≠ '#' := ((h w (by simp)).2 c (by simp [hw])).2
  unfold normalizeLine
  simp only []
  rw [if_neg (show ¬ (pyStrip (joinSep [' '] (w :: rest))).head? = some '#' from by
    rw [hstrip, hr]
    simp [hchash])]
  rw [if_neg (show ¬ (joinSep [' '] (w :: rest)).contains '#' = true from
    fun h0 => hnohash (by simpa using h0))]
  rw [if_neg (show ¬ pyStrip (joinSep [' '] (w :: rest)) = [] from by
    rw [hstrip, hr]
    simp)]
  rw [pySplit_joinSep (w :: rest) h']

theorem filterMap_id_of (f : Str → Option Str) :
    ∀ L : List Str, (∀ l ∈ L, f l = some l) → L.filterMap f = L := by
  intro L
  induction L with
  | nil => intro _; rfl
  | cons l rest ih =>
    intro h
    rw [List.filterMap_cons, h l (by simp), ih (fun v hv => h v (by simp [hv]))]

/-- C5. Idempotence of normalization: re-normalizing the newline-join of a
normalized listing returns the same sequence of lines. -/
theorem claim_C5_normalize_idempotent (x : Str) :
    normalize_assembly (joinSep ['\n'] (normalize_assembly x)) = normalize_assembly x := by
  have hshape := normalize_shape x
  have hlines : ∀ l ∈ normalize_assembly x, l ≠ [] ∧ ∀ c ∈ l, isLineBreak c = false := by
    intro l hm
    obtain ⟨ws, hne, hprops, rfl⟩ := hshape l hm
    constructor
    · obtain ⟨w, rest, rfl⟩ : ∃ w rest, ws = w :: rest := by
        cases ws with
        | nil => exact absurd rfl hne
        | cons w rest => exact ⟨w, rest, rfl⟩
      obtain ⟨c, t, hw⟩ : ∃ c t, w = c :: t := by
        cases hw0 : w with
        | nil => exact absurd hw0 (hprops w (by simp)).1
        | cons c t => exact ⟨c, t, rfl⟩
      obtain ⟨r, hr⟩ := joinSep_head [' '] w rest c t hw
      rw [hr]
      simp
    · intro c hc
      rcases mem_joinSep [' '] ws c hc with ⟨w, hw, hcw⟩ | hc'
      · have hns := ((hprops w hw).2 c hcw).1
        by_cases hb : isLineBreak c = true
        · rw [isPySpace_of_isLineBreak c hb] at hns
          simp at hns
        · simpa using hb
      · simp at hc'
        subst hc'
        decide
  show (pySplitlines (joinSep ['\n'] (normalize_assembly x))).filterMap normalizeLine =
    normalize_assembly x
  rw [pySplitlines_joinSep (normalize_assembly x) hlines]
  apply filterMap_id_of
  intro l hm
  obtain ⟨ws, hne, hprops, rfl⟩ := hshape l hm
  exact normalizeLine_of_shape ws hne hprops

/-! ### Summary template (C8) -/

theorem specCapped_eq (pre : Str) (cap : Nat) (items : List Str) (h : items ≠ []) :
    specCapped pre cap items = some (capSection pre cap items) := by
  unfold specCapped capSection
  rw [if_neg h]
  by_cases hc : items.length > cap
  · rw [if_pos hc, if_pos hc]
    simp [List.append_assoc]
  · rw [if_neg hc, if_neg hc]
    simp

theorem specCapped_nil (pre : Str) (cap : Nat) :
    specCapped pre cap [] = none := by
  simp [specCapped]

theorem joinSep_cons_exists (sep x : Str) (xs : List Str) :
    ∃ r, joinSep sep (x :: xs) = x ++ r := by
  cases xs with
  | nil => exact ⟨[], by simp [joinSep]⟩
  | cons y ys => exact ⟨sep ++ joinSep sep (y :: ys), joinSep_cons_cons sep x y ys⟩

theorem generate_diff_summary_eq_spec (stats : DiffStats) (lines1 lines2 : List Str) :
    generate_diff_summary stats lines1 lines2 = specSummary stats lines1 lines2 := by
  unfold generate_diff_summary specSummary
  simp only []
  by_cases h1 : stats.unique_instructions_added = [] <;>
  by_cases h2 : stats.unique_instructions_removed = [] <;>
  by_cases h3 : stats.unique_calls_added = [] <;>
  by_cases h4 : stats.unique_calls_removed = [] <;>
  simp [h1, h2, h3, h4, specCapped_eq, specCapped_nil, specSizeSection]

/-- C8. Summary template correctness: the summary is the pipe-join, in
order, of the size section, then up to 5 deduplicated added and removed
mnemonics each with an overflow marker, then up to 3 added and removed
calls likewise, omitting empty sections; and with a 3-line versus 2-line
pair the summary contains the substring `1 lines shorter`. -/
theorem claim_C8_summary_template :
    (∀ (stats : DiffStats) (lines1 lines2 : List Str),
      generate_diff_summary stats lines1 lines2 = specSummary stats lines1 lines2) ∧
    (∀ (stats : DiffStats) (lines1 lines2 : List Str),
      lines1.length = 3 → lines2.length = 2 →
      "1 lines shorter".toList <:+: generate_diff_summary stats lines1 lines2) := by
  constructor
  · exact generate_diff_summary_eq_spec
  · intro stats lines1 lines2 h3 h2
    rw [generate_diff_summary_eq_spec]
    unfold specSummary
    rw [show List.filterMap id
        [some (specSizeSection lines1 lines2),
         specCapped ("New instructions: ".toList) 5 stats.unique_instructions_added,
         specCapped ("Removed instructions: ".toList) 5 stats.unique_instructions_removed,
         specCapped ("New function calls: ".toList) 3 stats.unique_calls_added,
         specCapped ("Removed function calls: ".toList) 3 stats.unique_calls_removed] =
        specSizeSection lines1 lines2 :: List.filterMap id
        [specCapped ("New instructions: ".toList) 5 stats.unique_instructions_added,
         specCapped ("Removed instructions: ".toList) 5 stats.unique_instructions_removed,
         specCapped ("New function calls: ".toList) 3 stats.unique_calls_added,
         specCapped ("Removed function calls: ".toList) 3 stats.unique_calls_removed]
      from by simp [List.filterMap_cons]]
    obtain ⟨r, hrj⟩ := joinSep_cons_exists (" | ".toList) (specSizeSection lines1 lines2)
      (List.filterMap id
        [specCapped ("New instructions: ".toList) 5 stats.unique_instructions_added,
         specCapped ("Removed instructions: ".toList) 5 stats.unique_instructions_removed,
         specCapped ("New function calls: ".toList) 3 stats.unique_calls_added,
         specCapped ("Removed function calls: ".toList) 3 stats.unique_calls_removed])
    rw [hrj]
    rw [show specSizeSection lines1 lines2 =
        "Second version is ".toList ++ "1 lines shorter".toList from by
      unfold specSizeSection
      rw [h3, h2]
      decide]
    rw [List.append_assoc]
    exact ⟨"Second version is ".toList, r, rfl⟩

/-- Witness for C8: both parts applied at a concrete statistics record and
the listings `[[x],[x],[x]]` and `[[x],[x]]`. -/
theorem claim_C8_witness :
    generate_diff_summary analyzeInit [['x'],['x'],['x']] [['x'],['x']] =
      specSummary analyzeInit [['x'],['x'],['x']] [['x'],['x']] ∧
    "1 lines shorter".toList <:+:
      generate_diff_summary analyzeInit [['x'],['x'],['x']] [['x'],['x']] :=
  ⟨claim_C8_summary_template.1 analyzeInit [['x'],['x'],['x']] [['x'],['x']],
   claim_C8_summary_template.2 analyzeInit [['x'],['x'],['x']] [['x'],['x']] rfl rfl⟩

/-! ### Bounds of the sequence matcher (towards C9 and C1) -/

theorem foldl_inv {α σ : Type} (f : σ → α → σ) (P : σ → Prop) (Q : α → Prop) :
    ∀ (l : List α), (∀ x ∈ l, Q x) →
      (∀ s x, P s → Q x → P (f s x)) → ∀ s, P s → P (l.foldl f s) := by
  intro l
  induction l with
  | nil => intro _ _ s hs; exact hs
  | cons x xs ih =>
    intro hq hstep s hs
    rw [List.foldl_cons]
    exact ih (fun y hy => hq y (by simp [hy])) hstep (f s x) (hstep s x hs (hq x (by simp)))

theorem foldl_range'_inv {σ : Type} (f : σ → Nat → σ) (P : Nat → σ → Prop) :
    ∀ (n start : Nat) (s : σ), P start s →
      (∀ i s, start ≤ i → i < start + n → P i s → P (i + 1) (f s i)) →
      P (start + n) ((List.range' start n).foldl f s) := by
  intro n
  induction n with
  | zero => intro start s hs _; exact hs
  | succ n ih =>
    intro start s hs hstep
    rw [List.range'_succ, List.foldl_cons]
    have h1 : P (start + 1) (f s start) :=
      hstep start s (Nat.le_refl _) (by omega) hs
    have h2 := ih (start + 1) (f s start) h1
      (fun i s hi1 hi2 hp => hstep i s (by omega) (by omega) hp)
    have : start + 1 + n = start + (n + 1) := by omega
    rwa [this] at h2

/-- The invariant of the chain-length map inside `find_longest_match`:
values are bounded by the number of processed rows and by the distance to
the window start. -/
def MapBound (alo blo gen : Nat) (m : Nat → Nat) : Prop :=
  ∀ j, m j ≤ gen - alo ∧ m j ≤ j + 1 - blo

/-- The invariant of the running best triple. -/
def BestBound (alo ahi blo bhi : Nat) (x : Nat × Nat × Nat) : Prop :=
  alo ≤ x.1 ∧ blo ≤ x.2.1 ∧ x.1 + x.2.2 ≤ ahi ∧ x.2.1 + x.2.2 ≤ bhi

theorem flmInnerStep_fst (i : Nat) (m : Nat → Nat)
    (st : (Nat → Nat) × (Nat × Nat × Nat)) (j : Nat) :
    (flmInnerStep i m st j).1 =
      fun j2 => if j2 = j then (if j = 0 then 0 else m (j - 1)) + 1 else st.1 j2 := by
  unfold flmInnerStep
  simp only []
  split <;> split <;> rfl

theorem flmInnerStep_snd (i : Nat) (m : Nat → Nat)
    (st : (Nat → Nat) × (Nat × Nat × Nat)) (j : Nat) :
    (flmInnerStep i m st j).2 =
      if (if j = 0 then 0 else m (j - 1)) + 1 > st.2.2.2 then
        (i + 1 - ((if j = 0 then 0 else m (j - 1)) + 1),
         j + 1 - ((if j = 0 then 0 else m (j - 1)) + 1),
         (if j = 0 then 0 else m (j - 1)) + 1)
      else st.2 := by
  unfold flmInnerStep
  simp only []
  split <;> split <;> rfl

theorem flmInnerStep_inv (i alo ahi blo bhi : Nat) (hi1 : alo ≤ i) (hi2 : i < ahi)
    (j2lenOld : Nat → Nat) (hold : MapBound alo blo i j2lenOld) :
    ∀ st j, (MapBound alo blo (i + 1) st.1 ∧ BestBound alo ahi blo bhi st.2) →
      (blo ≤ j ∧ j < bhi) →
      MapBound alo blo (i + 1) (flmInnerStep i j2lenOld st j).1 ∧
      BestBound alo ahi blo bhi (flmInnerStep i j2lenOld st j).2 := by
  intro st j hst hj
  obtain ⟨hmap, hbest⟩ := hst
  obtain ⟨hj1, hj2⟩ := hj
  have hk1 : (if j = 0 then 0 else j2lenOld (j - 1)) + 1 ≤ i + 1 - alo := by
    by_cases h0 : j = 0
    · rw [if_pos h0]; omega
    · rw [if_neg h0]
      have := (hold (j - 1)).1
      omega
  have hk2 : (if j = 0 then 0 else j2lenOld (j - 1)) + 1 ≤ j + 1 - blo := by
    by_cases h0 : j = 0
    · rw [if_pos h0]
      have : blo = 0 := by omega
      omega
    · rw [if_neg h0]
      have := (hold (j - 1)).2
      omega
  constructor
  · rw [flmInnerStep_fst]
    intro j2
    simp only []
    by_cases hjj : j2 = j
    · rw [if_pos hjj]
      subst hjj
      exact ⟨hk1, hk2⟩
    · rw [if_neg hjj]
      exact hmap j2
  · rw [flmInnerStep_snd]
    by_cases hcmp : (if j = 0 then 0 else j2lenOld (j - 1)) + 1 > st.2.2.2
    · rw [if_pos hcmp]
      unfold BestBound
      simp only []
      omega
    · rw [if_neg hcmp]
      exact hbest

theorem flmOuterStep_inv (a b : List Str) (alo ahi blo bhi : Nat) :
    ∀ i st, alo ≤ i → i < ahi →
      (MapBound alo blo i st.1 ∧ BestBound alo ahi blo bhi st.2) →
      MapBound alo blo (i + 1) (flmOuterStep a b blo bhi st i).1 ∧
      BestBound alo ahi blo bhi (flmOuterStep a b blo bhi st i).2 := by
  intro i st hi1 hi2 hst
  unfold flmOuterStep
  simp only []
  refine foldl_inv (flmInnerStep i st.1)
    (fun st2 => MapBound alo blo (i + 1) st2.1 ∧ BestBound alo ahi blo bhi st2.2)
    (fun j => blo ≤ j ∧ j < bhi) _ ?_ ?_ _ ?_
  · intro j hj
    have := List.mem_filter.mp hj
    have h2 := this.2
    simp only [Bool.and_eq_true, decide_eq_true_eq] at h2
    exact h2
  · intro s j hs hj
    exact flmInnerStep_inv i alo ahi blo bhi hi1 hi2 st.1 hst.1 s j hs hj
  · constructor
    · intro j; exact ⟨Nat.zero_le _, Nat.zero_le _⟩
    · exact hst.2

theorem flmCore_bounds (a b : List Str) (alo ahi blo bhi : Nat)
    (ha : alo ≤ ahi) (hb : blo ≤ bhi) :
    BestBound alo ahi blo bhi (flmCore a b alo ahi blo bhi) := by
  unfold flmCore
  have h := foldl_range'_inv (flmOuterStep a b blo bhi)
    (fun i st => MapBound alo blo i st.1 ∧ BestBound alo ahi blo bhi st.2)
    (ahi - alo) alo ((fun _ => 0), (alo, blo, 0)) ?_ ?_
  · exact h.2
  · constructor
    · intro j; exact ⟨Nat.zero_le _, Nat.zero_le _⟩
    · exact ⟨Nat.le_refl _, Nat.le_refl _, by simpa using ha, by simpa using hb⟩
  · intro i st hi1 hi2 hp
    exact flmOuterStep_inv a b alo ahi blo bhi i st hi1 (by omega) hp

theorem extendBack_bounds (a b : List Str) (alo blo : Nat) :
    ∀ besti bestj bestsize, alo ≤ besti → blo ≤ bestj →
      alo ≤ (extendBack a b alo blo besti bestj bestsize).1 ∧
      blo ≤ (extendBack a b alo blo besti bestj bestsize).2.1 ∧
      (extendBack a b alo blo besti bestj bestsize).1 +
        (extendBack a b alo blo besti bestj bestsize).2.2 = besti + bestsize ∧
      (extendBack a b alo blo besti bestj bestsize).2.1 +
        (extendBack a b alo blo besti bestj bestsize).2.2 = bestj + bestsize := by
  intro besti
  induction besti with
  | zero =>
    intro bestj bestsize h1 h2
    exact ⟨h1, h2, rfl, rfl⟩
  | succ n ih =>
    intro bestj bestsize h1 h2
    unfold extendBack
    split
    · rename_i hcond
      have := ih (bestj - 1) (bestsize + 1) (by omega) (by omega)
      refine ⟨this.1, this.2.1, by omega, by omega⟩
    · exact ⟨h1, h2, rfl, rfl⟩

theorem extendFwdAux_bounds (a b : List Str) (ahi bhi besti bestj : Nat) :
    ∀ fuel bestsize, besti + bestsize ≤ ahi → bestj + bestsize ≤ bhi →
      besti + extendFwdAux a b ahi bhi besti bestj fuel bestsize ≤ ahi ∧
      bestj + extendFwdAux a b ahi bhi besti bestj fuel bestsize ≤ bhi := by
  intro fuel
  induction fuel with
  | zero => intro bestsize h1 h2; exact ⟨h1, h2⟩
  | succ n ih =>
    intro bestsize h1 h2
    unfold extendFwdAux
    split
    · rename_i hcond
      exact ih (bestsize + 1) (by omega) (by omega)
    · exact ⟨h1, h2⟩

theorem flm_bounds (a b : List Str) (alo ahi blo bhi : Nat)
    (ha : alo ≤ ahi) (hb : blo ≤ bhi) :
    alo ≤ (find_longest_match a b alo ahi blo bhi).1 ∧
    blo ≤ (find_longest_match a b alo ahi blo bhi).2.1 ∧
    (find_longest_match a b alo ahi blo bhi).1 +
      (find_longest_match a b alo ahi blo bhi).2.2 ≤ ahi ∧
    (find_longest_match a b alo ahi blo bhi).2.1 +
      (find_longest_match a b alo ahi blo bhi).2.2 ≤ bhi := by
  have hcore := flmCore_bounds a b alo ahi blo bhi ha hb
  unfold BestBound at hcore
  unfold find_longest_match
  simp only []
  have hback := extendBack_bounds a b alo blo (flmCore a b alo ahi blo bhi).1
    (flmCore a b alo ahi blo bhi).2.1 (flmCore a b alo ahi blo bhi).2.2
    hcore.1 hcore.2.1
  unfold extendFwd
  have hfwd := extendFwdAux_bounds a b ahi bhi
    (extendBack a b alo blo (flmCore a b alo ahi blo bhi).1
      (flmCore a b alo ahi blo bhi).2.1 (flmCore a b alo ahi blo bhi).2.2).1
    (extendBack a b alo blo (flmCore a b alo ahi blo bhi).1
      (flmCore a b alo ahi blo bhi).2.1 (flmCore a b alo ahi blo bhi).2.2).2.1
    (ahi - ((extendBack a b alo blo (flmCore a b alo ahi blo bhi).1
      (flmCore a b alo ahi blo bhi).2.1 (flmCore a b alo ahi blo bhi).2.2).1 +
      (extendBack a b alo blo (flmCore a b alo ahi blo bhi).1
      (flmCore a b alo ahi blo bhi).2.1 (flmCore a b alo ahi blo bhi).2.2).2.2))
    (extendBack a b alo blo (flmCore a b alo ahi blo bhi).1
      (flmCore a b alo ahi blo bhi).2.1 (flmCore a b alo ahi blo bhi).2.2).2.2
    (by omega) (by omega)
  exact ⟨hback.1, hback.2.1, hfwd.1, hfwd.2⟩

theorem BlocksChain.mono_lower {hi hj : Nat} :
    ∀ {l : List (Nat × Nat × Nat)} {ci cj ci' cj' : Nat},
      BlocksChain ci hi cj hj l → ci' ≤ ci → cj' ≤ cj → BlocksChain ci' hi cj' hj l := by
  intro l ci cj ci' cj' h h1 h2
  match l with
  | [] => trivial
  | (i, j, k) :: rest =>
    obtain ⟨a1, a2, a3, a4, a5⟩ := h
    exact ⟨by omega, by omega, a3, a4, a5⟩

theorem BlocksChain.mono_upper {hi hj hi' hj' : Nat} (hhi : hi ≤ hi') (hhj : hj ≤ hj') :
    ∀ (l : List (Nat × Nat × Nat)) (ci cj : Nat),
      BlocksChain ci hi cj hj l → BlocksChain ci hi' cj hj' l := by
  intro l
  induction l with
  | nil => intro _ _ _; trivial
  | cons blk rest ih =>
    intro ci cj h
    obtain ⟨i, j, k⟩ := blk
    obtain ⟨a1, a2, a3, a4, a5⟩ := h
    exact ⟨a1, a2, by omega, by omega, ih _ _ a5⟩

theorem BlocksChain.append {hi hj : Nat} :
    ∀ (L M : List (Nat × Nat × Nat)) (ci cj mi mj : Nat),
      BlocksChain ci mi cj mj L → BlocksChain mi hi mj hj M →
      ci ≤ mi → cj ≤ mj → mi ≤ hi → mj ≤ hj →
      BlocksChain ci hi cj hj (L ++ M) := by
  intro L
  induction L with
  | nil =>
    intro M ci cj mi mj _ hM h1 h2 _ _
    exact BlocksChain.mono_lower hM h1 h2
  | cons blk rest ih =>
    intro M ci cj mi mj hL hM h1 h2 h3 h4
    obtain ⟨i, j, k⟩ := blk
    obtain ⟨a1, a2, a3, a4, a5⟩ := hL
    exact ⟨a1, a2, by omega, by omega, ih M (i + k) (j + k) mi mj a5 hM a3 a4 h3 h4⟩

theorem matchingBlocksFuel_chain (a b : List Str) :
    ∀ (fuel alo ahi blo bhi : Nat), alo ≤ ahi → blo ≤ bhi →
      BlocksChain alo ahi blo bhi (matchingBlocksFuel a b fuel alo ahi blo bhi) := by
  intro fuel
  induction fuel with
  | zero => intro alo ahi blo bhi _ _; trivial
  | succ n ih =>
    intro alo ahi blo bhi ha hb
    unfold matchingBlocksFuel
    simp only []
    split
    · trivial
    · have hbd := flm_bounds a b alo ahi blo bhi ha hb
      have hmid : BlocksChain (find_longest_match a b alo ahi blo bhi).1 ahi
          (find_longest_match a b alo ahi blo bhi).2.1 bhi
          (((find_longest_match a b alo ahi blo bhi).1,
           (find_longest_match a b alo ahi blo bhi).2.1,
           (find_longest_match a b alo ahi blo bhi).2.2) ::
          (if (find_longest_match a b alo ahi blo bhi).1 +
              (find_longest_match a b alo ahi blo bhi).2.2 < ahi ∧
             (find_longest_match a b alo ahi blo bhi).2.1 +
              (find_longest_match a b alo ahi blo bhi).2.2 < bhi then
            matchingBlocksFuel a b n
              ((find_longest_match a b alo ahi blo bhi).1 +
               (find_longest_match a b alo ahi blo bhi).2.2) ahi
              ((find_longest_match a b alo ahi blo bhi).2.1 +
               (find_longest_match a b alo ahi blo bhi).2.2) bhi
          else [])) := by
        refine ⟨Nat.le_refl _, Nat.le_refl _, hbd.2.2.1, hbd.2.2.2, ?_⟩
        split
        · rename_i hg
          exact ih _ ahi _ bhi (by omega) (by omega)
        · trivial
      split
      · rename_i hg
        refine BlocksChain.append _ _ alo blo
          (find_longest_match a b alo ahi blo bhi).1
          (find_longest_match a b alo ahi blo bhi).2.1
          (ih alo _ blo _ (by omega) (by omega)) hmid
          (by omega) (by omega) (by omega) (by omega)
      · exact BlocksChain.mono_lower hmid hbd.1 hbd.2.1

theorem mergeAdjAux_chain {hi hj : Nat} :
    ∀ (bs : List (Nat × Nat × Nat)) (i1 j1 k1 : Nat),
      i1 + k1 ≤ hi → j1 + k1 ≤ hj →
      BlocksChain (i1 + k1) hi (j1 + k1) hj bs →
      BlocksChain i1 hi j1 hj (mergeAdjAux i1 j1 k1 bs) := by
  intro bs
  induction bs with
  | nil =>
    intro i1 j1 k1 h1 h2 _
    unfold mergeAdjAux
    split
    · exact ⟨Nat.le_refl _, Nat.le_refl _, h1, h2, trivial⟩
    · trivial
  | cons blk rest ih =>
    intro i1 j1 k1 h1 h2 hchain
    obtain ⟨i2, j2, k2⟩ := blk
    obtain ⟨a1, a2, a3, a4, a5⟩ := hchain
    unfold mergeAdjAux
    split
    · rename_i hadj
      have : BlocksChain (i1 + (k1 + k2)) hi (j1 + (k1 + k2)) hj rest := by
        have e1 : i1 + (k1 + k2) = i2 + k2 := by omega
        have e2 : j1 + (k1 + k2) = j2 + k2 := by omega
        rw [e1, e2]
        exact a5
      exact ih i1 j1 (k1 + k2) (by omega) (by omega) this
    · have hrest : BlocksChain i2 hi j2 hj (mergeAdjAux i2 j2 k2 rest) :=
        ih i2 j2 k2 a3 a4 a5
      split
      · rename_i hk1
        refine List.singleton_append ▸ ?_
        exact ⟨Nat.le_refl _, Nat.le_refl _, h1, h2,
          BlocksChain.mono_lower hrest a1 a2⟩
      · simpa using BlocksChain.mono_lower hrest (by omega) (by omega)

theorem chain_append_terminal {hi hj : Nat} :
    ∀ (L : List (Nat × Nat × Nat)) (ci cj : Nat),
      BlocksChain ci hi cj hj L → ci ≤ hi → cj ≤ hj →
      BlocksChain ci hi cj hj (L ++ [(hi, hj, 0)]) := by
  intro L
  induction L with
  | nil =>
    intro ci cj _ h1 h2
    exact ⟨h1, h2, by omega, by omega, trivial⟩
  | cons blk rest ih =>
    intro ci cj h h1 h2
    obtain ⟨i, j, k⟩ := blk
    obtain ⟨a1, a2, a3, a4, a5⟩ := h
    exact ⟨a1, a2, a3, a4, ih (i + k) (j + k) a5 a3 a4⟩

theorem get_matching_blocks_chain (a b : List Str) :
    BlocksChain 0 a.length 0 b.length (get_matching_blocks a b) := by
  unfold get_matching_blocks
  refine chain_append_terminal _ 0 0 ?_ (Nat.zero_le _) (Nat.zero_le _)
  refine mergeAdjAux_chain _ 0 0 0 (Nat.zero_le _) (Nat.zero_le _) ?_
  exact matchingBlocksFuel_chain a b _ 0 _ 0 _ (Nat.zero_le _) (Nat.zero_le _)

theorem opcodesAux_inv {hi hj : Nat} :
    ∀ (bs : List (Nat × Nat × Nat)) (i j : Nat),
      BlocksChain i hi j hj bs →
      ∀ op ∈ opcodesAux i j bs,
        op.i1 ≤ op.i2 ∧ op.i2 ≤ hi ∧ op.j1 ≤ op.j2 ∧ op.j2 ≤ hj := by
  intro bs
  induction bs with
  | nil => intro i j _ op hop; simp [opcodesAux] at hop
  | cons blk rest ih =>
    intro i j hchain op hop
    obtain ⟨ai, bj, size⟩ := blk
    obtain ⟨a1, a2, a3, a4, a5⟩ := hchain
    unfold opcodesAux at hop
    simp only [List.mem_append, List.mem_cons] at hop
    rcases hop with (hop | hop) | hop
    · by_cases hc1 : i < ai ∧ j < bj
      · rw [if_pos hc1] at hop
        simp at hop
        subst hop
        show i ≤ ai ∧ ai ≤ hi ∧ j ≤ bj ∧ bj ≤ hj
        omega
      · rw [if_neg hc1] at hop
        by_cases hc2 : i < ai
        · rw [if_pos hc2] at hop
          simp at hop
          subst hop
          show i ≤ ai ∧ ai ≤ hi ∧ j ≤ bj ∧ bj ≤ hj
          omega
        · rw [if_neg hc2] at hop
          by_cases hc3 : j < bj
          · rw [if_pos hc3] at hop
            simp at hop
            subst hop
            show i ≤ ai ∧ ai ≤ hi ∧ j ≤ bj ∧ bj ≤ hj
            omega
          · rw [if_neg hc3] at hop
            simp at hop
    · by_cases hc : size ≠ 0
      · rw [if_pos hc] at hop
        simp at hop
        subst hop
        show ai ≤ ai + size ∧ ai + size ≤ hi ∧ bj ≤ bj + size ∧ bj + size ≤ hj
        omega
      · rw [if_neg hc] at hop
        simp at hop
    · exact ih (ai + size) (bj + size) a5 op hop

theorem get_opcodes_inv (a b : List Str) :
    ∀ op ∈ get_opcodes a b,
      op.i1 ≤ op.i2 ∧ op.i2 ≤ a.length ∧ op.j1 ≤ op.j2 ∧ op.j2 ≤ b.length :=
  opcodesAux_inv (get_matching_blocks a b) 0 0 (get_matching_blocks_chain a b)

/-! ### Side-by-side construction (C9) -/

theorem pySlice_getD (l : List Str) (i1 i2 n : Nat) :
    (pySlice l i1 i2).getD n [] = if i1 + n < i2 then l.getD (i1 + n) [] else [] := by
  unfold pySlice
  rw [List.getD_eq_getElem?_getD, List.getD_eq_getElem?_getD,
    List.getElem?_take, List.getElem?_drop]
  by_cases h : i1 + n < i2
  · rw [if_pos (by omega), if_pos h]
  · rw [if_neg (by omega), if_neg h]
    rfl

theorem pySlice_length_of_le (l : List Str) (i1 i2 : Nat) (h : i2 ≤ l.length) :
    (pySlice l i1 i2).length = i2 - i1 := by
  unfold pySlice
  rw [List.length_take, List.length_drop]
  omega

theorem pySlice_eq_map_range' (l : List Str) (i1 i2 : Nat) (h : i2 ≤ l.length) :
    pySlice l i1 i2 = (List.range' i1 (i2 - i1)).map (fun i => l.getD i []) := by
  apply List.ext_getElem?_iff.mpr
  intro n
  rw [List.getElem?_map]
  by_cases hn : n < i2 - i1
  · rw [List.getElem?_range' i1 1 hn]
    unfold pySlice
    rw [List.getElem?_take, if_pos hn, List.getElem?_drop]
    have hin : i1 + n < l.length := by omega
    rw [List.getElem?_eq_getElem hin]
    rw [show i1 + 1 * n = i1 + n from by omega]
    simp [List.getD_eq_getElem?_getD, List.getElem?_eq_getElem hin]
  · have h1 : (pySlice l i1 i2)[n]? = none := by
      apply List.getElem?_eq_none
      rw [pySlice_length_of_le l i1 i2 h]
      omega
    have h2 : (List.range' i1 (i2 - i1))[n]? = none := by
      apply List.getElem?_eq_none
      rw [List.length_range']
      omega
    rw [h1, h2]
    rfl

theorem foldl_append_flatMap {α β : Type} (g : α → List β) :
    ∀ (l : List α) (acc : List β),
      l.foldl (fun acc x => acc ++ g x) acc = acc ++ l.flatMap g := by
  intro l
  induction l with
  | nil => intro acc; simp
  | cons x xs ih =>
    intro acc
    rw [List.foldl_cons, ih, List.flatMap_cons, List.append_assoc]

theorem generate_side_by_side_eq (lines1 lines2 : List Str) (max_width : Nat) :
    generate_side_by_side lines1 lines2 max_width =
      (get_opcodes lines1 lines2).flatMap (sideRowsImpl lines1 lines2 max_width) := by
  unfold generate_side_by_side
  have hlam : (fun (acc : List (Str × Str)) (op : Op) =>
      match op.tag with
      | Tag.equal => acc
      | Tag.replace =>
        acc ++ (List.range (max (op.i2 - op.i1) (op.j2 - op.j1))).map (fun i =>
          ((if op.i1 + i < op.i2 then lines1.getD (op.i1 + i) [] else []).take max_width,
           (if op.j1 + i < op.j2 then lines2.getD (op.j1 + i) [] else []).take max_width))
      | Tag.delete =>
        acc ++ (List.range' op.i1 (op.i2 - op.i1)).map (fun i =>
          ((lines1.getD i []).take max_width, []))
      | Tag.insert =>
        acc ++ (List.range' op.j1 (op.j2 - op.j1)).map (fun j =>
          ([], (lines2.getD j []).take max_width))) =
      fun acc op => acc ++ sideRowsImpl lines1 lines2 max_width op := by
    funext acc op
    unfold sideRowsImpl
    cases op.tag <;> simp
  rw [hlam, foldl_append_flatMap]
  rfl

theorem sideRowsImpl_eq_spec (lines1 lines2 : List Str) (mw : Nat) (op : Op)
    (_h1 : op.i1 ≤ op.i2) (h2 : op.i2 ≤ lines1.length)
    (_h3 : op.j1 ≤ op.j2) (h4 : op.j2 ≤ lines2.length) :
    sideRowsImpl lines1 lines2 mw op = sideRowsSpec lines1 lines2 mw op := by
  unfold sideRowsImpl sideRowsSpec
  cases op.tag
  · -- replace
    simp only []
    rw [pySlice_length_of_le lines1 op.i1 op.i2 h2,
        pySlice_length_of_le lines2 op.j1 op.j2 h4]
    apply List.map_eq_map_iff.mpr
    intro i _
    rw [pySlice_getD, pySlice_getD]
  · -- delete
    simp only []
    rw [pySlice_eq_map_range' lines1 op.i1 op.i2 h2, List.map_map]
    rfl
  · -- insert
    simp only []
    rw [pySlice_eq_map_range' lines2 op.j1 op.j2 h4, List.map_map]
    rfl
  · -- equal
    rfl

theorem flatMap_congr_mem {α β : Type} (f g : α → List β) :
    ∀ l : List α, (∀ x ∈ l, f x = g x) → l.flatMap f = l.flatMap g := by
  intro l
  induction l with
  | nil => intro _; rfl
  | cons x xs ih =>
    intro h
    rw [List.flatMap_cons, List.flatMap_cons, h x (by simp),
      ih (fun y hy => h y (by simp [hy]))]

/-- C9. Side-by-side construction: the emitted rows are exactly the
spec-described rows per opcode (nothing for `equal`, index-paired rows
with empty-string padding for `replace`, left-only rows for `delete`,
right-only rows for `insert`), and every emitted cell is truncated to at
most `max_width` characters (the source calls this with the default 50). -/
theorem claim_C9_side_by_side (lines1 lines2 : List Str) (mw : Nat) :
    generate_side_by_side lines1 lines2 mw =
      (get_opcodes lines1 lines2).flatMap (sideRowsSpec lines1 lines2 mw) ∧
    (∀ p ∈ generate_side_by_side lines1 lines2 mw,
      p.1.length ≤ mw ∧ p.2.length ≤ mw) := by
  have hmain : generate_side_by_side lines1 lines2 mw =
      (get_opcodes lines1 lines2).flatMap (sideRowsSpec lines1 lines2 mw) := by
    rw [generate_side_by_side_eq]
    apply flatMap_congr_mem
    intro op hop
    have hinv := get_opcodes_inv lines1 lines2 op hop
    exact sideRowsImpl_eq_spec lines1 lines2 mw op hinv.1 hinv.2.1 hinv.2.2.1 hinv.2.2.2
  refine ⟨hmain, ?_⟩
  intro p hp
  rw [generate_side_by_side_eq] at hp
  rw [List.mem_flatMap] at hp
  obtain ⟨op, _, hp⟩ := hp
  unfold sideRowsImpl at hp
  rcases htag : op.tag with _ | _ | _ | _ <;> rw [htag] at hp
  · simp only [List.mem_map] at hp
    obtain ⟨i, _, hpi⟩ := hp
    rw [← hpi]
    exact ⟨List.length_take_le _ _, List.length_take_le _ _⟩
  · simp only [List.mem_map] at hp
    obtain ⟨i, _, hpi⟩ := hp
    rw [← hpi]
    exact ⟨List.length_take_le _ _, by simp⟩
  · simp only [List.mem_map] at hp
    obtain ⟨i, _, hpi⟩ := hp
    rw [← hpi]
    exact ⟨by simp, List.length_take_le _ _⟩
  · simp at hp

/-- Witness for C9: a concrete delete-only comparison; the single row is
the truncated left line with an empty right cell. -/
theorem claim_C9_witness :
    generate_side_by_side ["mov eax, 1".toList] [] 5 =
      (get_opcodes ["mov eax, 1".toList] []).flatMap
        (sideRowsSpec ["mov eax, 1".toList] [] 5) ∧
    ("mov e".toList, ([] : Str)).1.length ≤ 5 ∧
    ("mov e".toList, ([] : Str)).2.length ≤ 5 :=
  ⟨(claim_C9_side_by_side ["mov eax, 1".toList] [] 5).1,
   (claim_C9_side_by_side ["mov eax, 1".toList] [] 5).2
     ("mov e".toList, ([] : Str)) (by decide)⟩

/-! ### C1, amended: symmetry for listings without common lines -/

theorem b2jGet_disjoint (l1 l2 : List Str) (hd : ∀ x ∈ l1, x ∉ l2)
    (i : Nat) (hi : i < l1.length) : b2jGet l2 (l1.getD i []) = [] := by
  have hmem : l1.getD i [] ∈ l1 := by
    rw [List.getD_eq_getElem?_getD, List.getElem?_eq_getElem hi]
    exact List.getElem_mem hi
  have hind : b2jIndices l2 (l1.getD i []) = [] := by
    unfold b2jIndices
    rw [List.filter_eq_nil_iff]
    intro j hj
    simp only [List.mem_range] at hj
    simp only [decide_eq_true_eq]
    intro heq
    have hmem2 : l2.getD j [] ∈ l2 := by
      rw [List.getD_eq_getElem?_getD, List.getElem?_eq_getElem hj]
      exact List.getElem_mem hj
    exact hd _ hmem (heq ▸ hmem2)
  unfold b2jGet
  rw [hind]
  split <;> rfl

theorem flmOuterStep_disjoint (l1 l2 : List Str) (blo bhi : Nat)
    (hd : ∀ x ∈ l1, x ∉ l2) (st : (Nat → Nat) × (Nat × Nat × Nat))
    (i : Nat) (hi : i < l1.length) :
    (flmOuterStep l1 l2 blo bhi st i).2 = st.2 := by
  unfold flmOuterStep
  simp only []
  rw [b2jGet_disjoint l1 l2 hd i hi]
  rfl

theorem flmCore_disjoint (l1 l2 : List Str) (hd : ∀ x ∈ l1, x ∉ l2) :
    flmCore l1 l2 0 l1.length 0 l2.length = (0, 0, 0) := by
  unfold flmCore
  have key : ∀ (idxs : List Nat), (∀ i ∈ idxs, i < l1.length) →
      ∀ st : (Nat → Nat) × (Nat × Nat × Nat),
      (idxs.foldl (flmOuterStep l1 l2 0 l2.length) st).2 = st.2 := by
    intro idxs
    induction idxs with
    | nil => intro _ st; rfl
    | cons i rest ih =>
      intro hmem st
      rw [List.foldl_cons]
      rw [ih (fun j hj => hmem j (List.mem_cons_of_mem i hj)) _]
      exact flmOuterStep_disjoint l1 l2 0 l2.length hd st i
        (hmem i (List.mem_cons_self i rest))
  rw [key (List.range' 0 (l1.length - 0))
    (fun i hi => by
      have h := List.mem_range'_1.mp hi
      omega)
    ((fun _ => 0), (0, 0, 0))]

theorem flm_disjoint (l1 l2 : List Str) (hd : ∀ x ∈ l1, x ∉ l2) :
    find_longest_match l1 l2 0 l1.length 0 l2.length = (0, 0, 0) := by
  have hfwd : extendFwd l1 l2 l1.length l2.length 0 0 0 = 0 := by
    unfold extendFwd
    cases hf : l1.length - (0 + 0) with
    | zero => rfl
    | succ m =>
      unfold extendFwdAux
      rw [if_neg]
      rintro ⟨ha, hb, heq⟩
      have h1 : l1.getD (0 + 0) [] ∈ l1 := by
        rw [List.getD_eq_getElem?_getD, List.getElem?_eq_getElem ha]
        exact List.getElem_mem ha
      have h2 : l2.getD (0 + 0) [] ∈ l2 := by
        rw [List.getD_eq_getElem?_getD, List.getElem?_eq_getElem hb]
        exact List.getElem_mem hb
      exact hd _ h1 (heq ▸ h2)
  unfold find_longest_match
  simp only []
  rw [flmCore_disjoint l1 l2 hd]
  show (0, 0, extendFwd l1 l2 l1.length l2.length 0 0 0) = (0, 0, 0)
  rw [hfwd]

theorem matching_blocks_disjoint (l1 l2 : List Str) (hd : ∀ x ∈ l1, x ∉ l2) :
    get_matching_blocks l1 l2 = [(l1.length, l2.length, 0)] := by
  have hfuel : matchingBlocksFuel l1 l2 (l1.length + l2.length + 1)
      0 l1.length 0 l2.length = [] := by
    unfold matchingBlocksFuel
    simp only []
    rw [flm_disjoint l1 l2 hd]
    rw [if_pos rfl]
  unfold get_matching_blocks
  rw [hfuel]
  rfl

theorem opcodes_disjoint (l1 l2 : List Str) (hd : ∀ x ∈ l1, x ∉ l2) :
    get_opcodes l1 l2 =
      if 0 < l1.length ∧ 0 < l2.length then
        [⟨Tag.replace, 0, l1.length, 0, l2.length⟩]
      else if 0 < l1.length then [⟨Tag.delete, 0, l1.length, 0, l2.length⟩]
      else if 0 < l2.length then [⟨Tag.insert, 0, l1.length, 0, l2.length⟩]
      else [] := by
  unfold get_opcodes
  rw [matching_blocks_disjoint l1 l2 hd]
  unfold opcodesAux
  rw [if_neg (by decide : ¬((0 : Nat) ≠ 0))]
  rw [show opcodesAux (l1.length + 0) (l2.length + 0) [] = [] from rfl]
  simp only [List.append_nil]

theorem adjustFirst_cons (n : Nat) (op : Op) (rest : List Op) :
    adjustFirst n (op :: rest) =
      if op.tag = Tag.equal then
        ⟨op.tag, max op.i1 (op.i2 - n), op.i2, max op.j1 (op.j2 - n), op.j2⟩ :: rest
      else op :: rest := rfl

theorem adjustLast_single (n : Nat) (op : Op) :
    adjustLast n [op] =
      if op.tag = Tag.equal then
        [⟨op.tag, op.i1, min op.i2 (op.i1 + n), op.j1, min op.j2 (op.j1 + n)⟩]
      else [op] := rfl

theorem groupedLoop_cons (n nn : Nat) (group : List Op) (op : Op)
    (rest : List Op) :
    groupedLoop n nn group (op :: rest) =
      if op.tag = Tag.equal ∧ op.i2 - op.i1 > nn then
        (group ++
          [⟨op.tag, op.i1, min op.i2 (op.i1 + n), op.j1, min op.j2 (op.j1 + n)⟩]) ::
        groupedLoop n nn
          [⟨op.tag, max op.i1 (op.i2 - n), op.i2, max op.j1 (op.j2 - n), op.j2⟩] rest
      else groupedLoop n nn (group ++ [op]) rest := rfl

theorem groupedLoop_nil_single (n nn : Nat) (g : Op) :
    groupedLoop n nn [g] [] =
      if g.tag = Tag.equal then [] else [[g]] := rfl

theorem grouped_single_nonequal (a b : List Str) (op : Op)
    (hop : op.tag ≠ Tag.equal) (hcodes : get_opcodes a b = [op]) :
    get_grouped_opcodes 3 a b = [[op]] := by
  unfold get_grouped_opcodes
  simp only []
  rw [hcodes]
  rw [if_neg (by simp : ¬([op] = ([] : List Op)))]
  rw [adjustFirst_cons, if_neg hop]
  rw [adjustLast_single, if_neg hop]
  rw [groupedLoop_cons, if_neg (fun hc => hop hc.1)]
  rw [show ([] : List Op) ++ [op] = [op] from rfl]
  rw [groupedLoop_nil_single, if_neg hop]

theorem pySlice_self {α : Type} (l : List α) : pySlice l 0 l.length = l := by
  simp [pySlice]

theorem unifiedGroupLines_single (a b : List Str) (tg : Tag)
    (hneq : tg ≠ Tag.equal) (i2 j2 : Nat) :
    unifiedGroupLines a b [⟨tg, 0, i2, 0, j2⟩] =
      ("@@ -".toList ++ formatRangeUnified 0 i2 ++ " +".toList ++
        formatRangeUnified 0 j2 ++ " @@".toList) ::
      ((if tg = Tag.replace ∨ tg = Tag.delete then
          (pySlice a 0 i2).map (fun s => '-' :: s) else []) ++
       (if tg = Tag.replace ∨ tg = Tag.insert then
          (pySlice b 0 j2).map (fun s => '+' :: s) else [])) := by
  unfold unifiedGroupLines
  simp [hneq]

theorem unified_disjoint (l1 l2 : List Str) (lab1 lab2 : Str)
    (hd : ∀ x ∈ l1, x ∉ l2) :
    (l1 = [] ∧ l2 = [] ∧ unified_diff l1 l2 lab1 lab2 3 = []) ∨
    ∃ hdr : Str, hdr.head? = some '@' ∧
      unified_diff l1 l2 lab1 lab2 3 =
        ("--- ".toList ++ lab1) :: ("+++ ".toList ++ lab2) :: hdr ::
        (l1.map (fun s => '-' :: s) ++ l2.map (fun s => '+' :: s)) := by
  have hcodes := opcodes_disjoint l1 l2 hd
  by_cases h1 : l1 = []
  · by_cases h2 : l2 = []
    · subst h1; subst h2
      refine Or.inl ⟨rfl, rfl, ?_⟩
      unfold unified_diff
      simp only []
      rw [show get_grouped_opcodes 3 ([] : List Str) ([] : List Str) = []
        from rfl]
      rw [if_pos rfl]
    · -- insert-only case
      subst h1
      have hb : 0 < l2.length := List.length_pos.mpr h2
      have hcodes' : get_opcodes [] l2 = [⟨Tag.insert, 0, 0, 0, l2.length⟩] := by
        rw [hcodes, if_neg (by simp), if_neg (by simp), if_pos hb]
        rfl
      have hgr := grouped_single_nonequal [] l2
        ⟨Tag.insert, 0, 0, 0, l2.length⟩ (by simp) hcodes'
      refine Or.inr ⟨"@@ -".toList ++ formatRangeUnified 0 0 ++ " +".toList ++
        formatRangeUnified 0 l2.length ++ " @@".toList, rfl, ?_⟩
      unfold unified_diff
      simp only []
      rw [hgr]
      rw [if_neg (by simp)]
      rw [List.flatMap_cons, List.flatMap_nil, List.append_nil]
      rw [unifiedGroupLines_single [] l2 Tag.insert (by simp) 0 l2.length]
      rw [if_neg (by simp), if_pos (Or.inr rfl)]
      rw [pySlice_self]
      simp
  · by_cases h2 : l2 = []
    · -- delete-only case
      subst h2
      have ha : 0 < l1.length := List.length_pos.mpr h1
      have hcodes' : get_opcodes l1 [] = [⟨Tag.delete, 0, l1.length, 0, 0⟩] := by
        rw [hcodes, if_neg (by simp), if_pos ha]
        rfl
      have hgr := grouped_single_nonequal l1 []
        ⟨Tag.delete, 0, l1.length, 0, 0⟩ (by simp) hcodes'
      refine Or.inr ⟨"@@ -".toList ++ formatRangeUnified 0 l1.length ++
        " +".toList ++ formatRangeUnified 0 0 ++ " @@".toList, rfl, ?_⟩
      unfold unified_diff
      simp only []
      rw [hgr]
      rw [if_neg (by simp)]
      rw [List.flatMap_cons, List.flatMap_nil, List.append_nil]
      rw [unifiedGroupLines_single l1 [] Tag.delete (by simp) l1.length 0]
      rw [if_pos (Or.inr rfl), if_neg (by simp)]
      rw [pySlice_self]
      simp
    · -- replace case
      have ha : 0 < l1.length := List.length_pos.mpr h1
      have hb : 0 < l2.length := List.length_pos.mpr h2
      have hcodes' : get_opcodes l1 l2 =
          [⟨Tag.replace, 0, l1.length, 0, l2.length⟩] := by
        rw [hcodes, if_pos ⟨ha, hb⟩]
      have hgr := grouped_single_nonequal l1 l2
        ⟨Tag.replace, 0, l1.length, 0, l2.length⟩ (by simp) hcodes'
      refine Or.inr ⟨"@@ -".toList ++ formatRangeUnified 0 l1.length ++
        " +".toList ++ formatRangeUnified 0 l2.length ++ " @@".toList, rfl, ?_⟩
      unfold unified_diff
      simp only []
      rw [hgr]
      rw [if_neg (by simp)]
      rw [List.flatMap_cons, List.flatMap_nil, List.append_nil]
      rw [unifiedGroupLines_single l1 l2 Tag.replace (by simp)
        l1.length l2.length]
      rw [if_pos (Or.inl rfl), if_pos (Or.inl rfl)]
      rw [pySlice_self, pySlice_self]

theorem analyzeStep_dash_header (st : DiffStats) (l : Str) :
    analyzeStep st ('-' :: '-' :: '-' :: l) = st := by
  have h1 : ¬((['+'] : Str).isPrefixOf ('-' :: '-' :: '-' :: l) = true ∧
      ¬(['+', '+', '+'] : Str).isPrefixOf ('-' :: '-' :: '-' :: l) = true) := by
    rintro ⟨h, -⟩
    simp [List.isPrefixOf] at h
  have h2 : ¬((['-'] : Str).isPrefixOf ('-' :: '-' :: '-' :: l) = true ∧
      ¬(['-', '-', '-'] : Str).isPrefixOf ('-' :: '-' :: '-' :: l) = true) := by
    rintro ⟨-, hn⟩
    exact hn (by simp [List.isPrefixOf])
  unfold analyzeStep
  rw [if_neg h1, if_neg h2]

theorem analyzeStep_plus_header (st : DiffStats) (l : Str) :
    analyzeStep st ('+' :: '+' :: '+' :: l) = st := by
  have h1 : ¬((['+'] : Str).isPrefixOf ('+' :: '+' :: '+' :: l) = true ∧
      ¬(['+', '+', '+'] : Str).isPrefixOf ('+' :: '+' :: '+' :: l) = true) := by
    rintro ⟨-, hn⟩
    exact hn (by simp [List.isPrefixOf])
  have h2 : ¬((['-'] : Str).isPrefixOf ('+' :: '+' :: '+' :: l) = true ∧
      ¬(['-', '-', '-'] : Str).isPrefixOf ('+' :: '+' :: '+' :: l) = true) := by
    rintro ⟨h, -⟩
    simp [List.isPrefixOf] at h
  unfold analyzeStep
  rw [if_neg h1, if_neg h2]

theorem analyzeStep_at_sign (st : DiffStats) (l : Str) :
    analyzeStep st ('@' :: l) = st := by
  have h1 : ¬((['+'] : Str).isPrefixOf ('@' :: l) = true ∧
      ¬(['+', '+', '+'] : Str).isPrefixOf ('@' :: l) = true) := by
    rintro ⟨h, -⟩
    simp [List.isPrefixOf] at h
  have h2 : ¬((['-'] : Str).isPrefixOf ('@' :: l) = true ∧
      ¬(['-', '-', '-'] : Str).isPrefixOf ('@' :: l) = true) := by
    rintro ⟨h, -⟩
    simp [List.isPrefixOf] at h
  unfold analyzeStep
  rw [if_neg h1, if_neg h2]

theorem analyzeStep_plus_line (st : DiffStats) (l : Str)
    (h : ¬(['+', '+'] : Str).isPrefixOf l = true) :
    analyzeStep st ('+' :: l) =
      { st with
        lines_added := st.lines_added + 1,
        instructions_added :=
          st.instructions_added ++ pyTruthy (extract_instruction l),
        function_calls_added :=
          st.function_calls_added ++ pyTruthy (extract_function_call l) } := by
  unfold analyzeStep
  rw [if_pos ⟨by simp [List.isPrefixOf],
    fun hp => h (by simpa [List.isPrefixOf] using hp)⟩]
  rfl

theorem analyzeStep_plus_skip (st : DiffStats) (l : Str)
    (h : (['+', '+'] : Str).isPrefixOf l = true) :
    analyzeStep st ('+' :: l) = st := by
  have h1 : ¬((['+'] : Str).isPrefixOf ('+' :: l) = true ∧
      ¬(['+', '+', '+'] : Str).isPrefixOf ('+' :: l) = true) := by
    rintro ⟨-, hn⟩
    exact hn (by simp [List.isPrefixOf, h])
  have h2 : ¬((['-'] : Str).isPrefixOf ('+' :: l) = true ∧
      ¬(['-', '-', '-'] : Str).isPrefixOf ('+' :: l) = true) := by
    rintro ⟨hx, -⟩
    simp [List.isPrefixOf] at hx
  unfold analyzeStep
  rw [if_neg h1, if_neg h2]

theorem analyzeStep_minus_line (st : DiffStats) (l : Str)
    (h : ¬(['-', '-'] : Str).isPrefixOf l = true) :
    analyzeStep st ('-' :: l) =
      { st with
        lines_removed := st.lines_removed + 1,
        instructions_removed :=
          st.instructions_removed ++ pyTruthy (extract_instruction l),
        function_calls_removed :=
          st.function_calls_removed ++ pyTruthy (extract_function_call l) } := by
  have h1 : ¬((['+'] : Str).isPrefixOf ('-' :: l) = true ∧
      ¬(['+', '+', '+'] : Str).isPrefixOf ('-' :: l) = true) := by
    rintro ⟨hx, -⟩
    simp [List.isPrefixOf] at hx
  unfold analyzeStep
  rw [if_neg h1]
  rw [if_pos ⟨by simp [List.isPrefixOf],
    fun hp => h (by simpa [List.isPrefixOf] using hp)⟩]
  rfl

theorem analyzeStep_minus_skip (st : DiffStats) (l : Str)
    (h : (['-', '-'] : Str).isPrefixOf l = true) :
    analyzeStep st ('-' :: l) = st := by
  have h1 : ¬((['+'] : Str).isPrefixOf ('-' :: l) = true ∧
      ¬(['+', '+', '+'] : Str).isPrefixOf ('-' :: l) = true) := by
    rintro ⟨hx, -⟩
    simp [List.isPrefixOf] at hx
  have h2 : ¬((['-'] : Str).isPrefixOf ('-' :: l) = true ∧
      ¬(['-', '-', '-'] : Str).isPrefixOf ('-' :: l) = true) := by
    rintro ⟨-, hn⟩
    exact hn (by simp [List.isPrefixOf, h])
  unfold analyzeStep
  rw [if_neg h1, if_neg h2]

theorem diffAddInstr_of_not (l : Str)
    (hp : ¬(['+', '+'] : Str).isPrefixOf l = true) :
    diffAddInstr l = pyTruthy (extract_instruction l) := by
  unfold diffAddInstr
  rw [if_neg hp]

theorem diffRemInstr_of_not (l : Str)
    (hp : ¬(['-', '-'] : Str).isPrefixOf l = true) :
    diffRemInstr l = pyTruthy (extract_instruction l) := by
  unfold diffRemInstr
  rw [if_neg hp]

theorem foldPlus_fields (bs : List Str) : ∀ st : DiffStats,
    ((bs.map (fun l => '+' :: l)).foldl analyzeStep st).instructions_added =
      st.instructions_added ++ bs.flatMap diffAddInstr ∧
    ((bs.map (fun l => '+' :: l)).foldl analyzeStep st).instructions_removed =
      st.instructions_removed := by
  induction bs with
  | nil => intro st; simp
  | cons l rest ih =>
    intro st
    rw [List.map_cons, List.foldl_cons]
    by_cases hp : (['+', '+'] : Str).isPrefixOf l = true
    · rw [analyzeStep_plus_skip st l hp]
      obtain ⟨ha, hr⟩ := ih st
      refine ⟨?_, hr⟩
      rw [ha, List.flatMap_cons]
      rw [show diffAddInstr l = [] from by unfold diffAddInstr; rw [if_pos hp]]
      rw [List.nil_append]
    · rw [analyzeStep_plus_line st l hp]
      obtain ⟨ha, hr⟩ := ih
        { st with
          lines_added := st.lines_added + 1,
          instructions_added :=
            st.instructions_added ++ pyTruthy (extract_instruction l),
          function_calls_added :=
            st.function_calls_added ++ pyTruthy (extract_function_call l) }
      refine ⟨?_, ?_⟩
      · rw [ha, List.flatMap_cons, diffAddInstr_of_not l hp]
        show st.instructions_added ++ pyTruthy (extract_instruction l) ++
            rest.flatMap diffAddInstr =
          st.instructions_added ++
            (pyTruthy (extract_instruction l) ++ rest.flatMap diffAddInstr)
        rw [List.append_assoc]
      · rw [hr]

theorem foldMinus_fields (bs : List Str) : ∀ st : DiffStats,
    ((bs.map (fun l => '-' :: l)).foldl analyzeStep st).instructions_removed =
      st.instructions_removed ++ bs.flatMap diffRemInstr ∧
    ((bs.map (fun l => '-' :: l)).foldl analyzeStep st).instructions_added =
      st.instructions_added := by
  induction bs with
  | nil => intro st; simp
  | cons l rest ih =>
    intro st
    rw [List.map_cons, List.foldl_cons]
    by_cases hp : (['-', '-'] : Str).isPrefixOf l = true
    · rw [analyzeStep_minus_skip st l hp]
      obtain ⟨hr, ha⟩ := ih st
      refine ⟨?_, ha⟩
      rw [hr, List.flatMap_cons]
      rw [show diffRemInstr l = [] from by unfold diffRemInstr; rw [if_pos hp]]
      rw [List.nil_append]
    · rw [analyzeStep_minus_line st l hp]
      obtain ⟨hr, ha⟩ := ih
        { st with
          lines_removed := st.lines_removed + 1,
          instructions_removed :=
            st.instructions_removed ++ pyTruthy (extract_instruction l),
          function_calls_removed :=
            st.function_calls_removed ++ pyTruthy (extract_function_call l) }
      refine ⟨?_, ?_⟩
      · rw [hr, List.flatMap_cons, diffRemInstr_of_not l hp]
        show st.instructions_removed ++ pyTruthy (extract_instruction l) ++
            rest.flatMap diffRemInstr =
          st.instructions_removed ++
            (pyTruthy (extract_instruction l) ++ rest.flatMap diffRemInstr)
        rw [List.append_assoc]
      · rw [ha]

theorem pyRstrip_cons_shape (c : Char) (u : Str) :
    pyRstrip (c :: u) = [] ∨ ∃ r, pyRstrip (c :: u) = c :: r := by
  obtain ⟨t, ht, -⟩ := rstrip_decomp (c :: u)
  cases hr : pyRstrip (c :: u) with
  | nil => exact Or.inl rfl
  | cons d r =>
    rw [hr, List.cons_append] at ht
    injection ht with hcd _
    exact Or.inr ⟨r, by rw [hcd]⟩

theorem extract_instruction_head_none (c : Char) (t : Str)
    (hns : isPySpace c = false) (hna : isLowerAlpha (pyLowerChar c) = false) :
    extract_instruction (c :: t) = none := by
  have hdw : (c :: t).dropWhile isPySpace = c :: t := by
    rw [List.dropWhile_cons, if_neg (by simp [hns])]
  have hstrip : pyStrip (c :: t) = pyRstrip (c :: t) := by
    unfold pyStrip; rw [hdw]
  cases hext : extract_instruction (c :: t) with
  | none => rfl
  | some x =>
    exfalso
    unfold extract_instruction at hext
    simp only [] at hext
    split at hext
    · exact absurd hext (by simp)
    · split at hext
      · exact absurd hext (by simp)
      · split at hext
        · exact absurd hext (by simp)
        · split at hext
          · exact absurd hext (by simp)
          · split at hext
            · exact absurd hext (by simp)
            · rename_i w ws heq
              split at hext
              · rename_i hcond
                have hcond' : matchesMnemonic (pyLower w) = true ∧
                    (pyLower w).length ≤ 10 := by simpa using hcond
                rcases pyRstrip_cons_shape c t with h0 | ⟨r, hr⟩
                · rw [hstrip, h0, pySplit_nil] at heq
                  exact absurd heq (by simp)
                · rw [hstrip, hr, pySplit_word r c hns] at heq
                  injection heq with hw _
                  have hm := hcond'.1
                  rw [← hw] at hm
                  simp [pyLower, matchesMnemonic, hna] at hm
              · exact absurd hext (by simp)

theorem prefixOf_two (c0 : Char) (l : Str)
    (hp : ([c0, c0] : Str).isPrefixOf l = true) : ∃ t, l = c0 :: c0 :: t := by
  cases l with
  | nil => simp [List.isPrefixOf] at hp
  | cons c l' =>
    cases l' with
    | nil => simp [List.isPrefixOf] at hp
    | cons d t =>
      simp [List.isPrefixOf] at hp
      obtain ⟨h1, h2⟩ := hp
      subst h1; subst h2
      exact ⟨t, rfl⟩

theorem diffAddInstr_eq_truthy (l : Str) :
    diffAddInstr l = pyTruthy (extract_instruction l) := by
  by_cases hp : (['+', '+'] : Str).isPrefixOf l = true
  · unfold diffAddInstr
    rw [if_pos hp]
    obtain ⟨t, rfl⟩ := prefixOf_two '+' l hp
    rw [extract_instruction_head_none '+' ('+' :: t) (by decide) (by decide)]
    rfl
  · exact diffAddInstr_of_not l hp

theorem diffRemInstr_eq_truthy (l : Str) :
    diffRemInstr l = pyTruthy (extract_instruction l) := by
  by_cases hp : (['-', '-'] : Str).isPrefixOf l = true
  · unfold diffRemInstr
    rw [if_pos hp]
    obtain ⟨t, rfl⟩ := prefixOf_two '-' l hp
    rw [extract_instruction_head_none '-' ('-' :: t) (by decide) (by decide)]
    rfl
  · exact diffRemInstr_of_not l hp

theorem analyze_disjoint (l1 l2 : List Str) (lab1 lab2 : Str)
    (hd : ∀ x ∈ l1, x ∉ l2) :
    (analyze_diff (unified_diff l1 l2 lab1 lab2 3)).instructions_added =
      l2.flatMap diffAddInstr ∧
    (analyze_diff (unified_diff l1 l2 lab1 lab2 3)).instructions_removed =
      l1.flatMap diffRemInstr := by
  rcases unified_disjoint l1 l2 lab1 lab2 hd with ⟨he1, he2, hnil⟩ | ⟨hdr, hh, heq⟩
  · subst he1; subst he2
    rw [hnil]
    exact ⟨rfl, rfl⟩
  · cases hdr with
    | nil => simp at hh
    | cons hc hdrt =>
      simp only [List.head?_cons, Option.some.injEq] at hh
      subst hh
      have hstep1 : analyzeStep analyzeInit ("--- ".toList ++ lab1) = analyzeInit := by
        show analyzeStep analyzeInit ('-' :: '-' :: '-' :: (' ' :: lab1)) = analyzeInit
        exact analyzeStep_dash_header _ _
      have hstep2 : analyzeStep analyzeInit ("+++ ".toList ++ lab2) = analyzeInit := by
        show analyzeStep analyzeInit ('+' :: '+' :: '+' :: (' ' :: lab2)) = analyzeInit
        exact analyzeStep_plus_header _ _
      have hfold :
          ((("--- ".toList ++ lab1) :: ("+++ ".toList ++ lab2) :: ('@' :: hdrt) ::
            (l1.map (fun s => '-' :: s) ++ l2.map (fun s => '+' :: s))).foldl
              analyzeStep analyzeInit).instructions_added =
            l2.flatMap diffAddInstr ∧
          ((("--- ".toList ++ lab1) :: ("+++ ".toList ++ lab2) :: ('@' :: hdrt) ::
            (l1.map (fun s => '-' :: s) ++ l2.map (fun s => '+' :: s))).foldl
              analyzeStep analyzeInit).instructions_removed =
            l1.flatMap diffRemInstr := by
        rw [List.foldl_cons, hstep1, List.foldl_cons, hstep2, List.foldl_cons,
          analyzeStep_at_sign analyzeInit hdrt, List.foldl_append]
        constructor
        · rw [(foldPlus_fields l2 _).1, (foldMinus_fields l1 analyzeInit).2]
          show ([] : List Str) ++ l2.flatMap diffAddInstr = l2.flatMap diffAddInstr
          rw [List.nil_append]
        · rw [(foldPlus_fields l2 _).2, (foldMinus_fields l1 analyzeInit).1]
          show ([] : List Str) ++ l1.flatMap diffRemInstr = l1.flatMap diffRemInstr
          rw [List.nil_append]
      constructor
      · rw [heq]
        exact hfold.1
      · rw [heq]
        exact hfold.2

/-- C1, amended.  The spec's symmetry claim — `instructions_added` of
`generate_assembly_diff(A, B)` equals `instructions_removed` of
`generate_assembly_diff(B, A)` — holds whenever the two normalized
listings share no common line, so that the matcher finds no matching
block in either direction and both diffs list every line of each side.
(The counterexample shows a shared line breaks the general claim.) -/
theorem claim_C1_amended (asm1 asm2 : Str)
    (hdisj : ∀ l ∈ normalize_assembly asm1, l ∉ normalize_assembly asm2) :
    (generate_assembly_diff asm1 asm2 defaultLabel1 defaultLabel2
        3).statistics.instructions_added =
    (generate_assembly_diff asm2 asm1 defaultLabel1 defaultLabel2
        3).statistics.instructions_removed := by
  have hdisj2 : ∀ l ∈ normalize_assembly asm2, l ∉ normalize_assembly asm1 :=
    fun l hl hc => hdisj l hc hl
  have h1 := (analyze_disjoint (normalize_assembly asm1) (normalize_assembly asm2)
    defaultLabel1 defaultLabel2 hdisj).1
  have h2 := (analyze_disjoint (normalize_assembly asm2) (normalize_assembly asm1)
    defaultLabel1 defaultLabel2 hdisj2).2
  show (analyze_diff (unified_diff (normalize_assembly asm1)
      (normalize_assembly asm2) defaultLabel1 defaultLabel2 3)).instructions_added =
    (analyze_diff (unified_diff (normalize_assembly asm2)
      (normalize_assembly asm1) defaultLabel1 defaultLabel2 3)).instructions_removed
  rw [h1, h2]
  have hfun : diffAddInstr = diffRemInstr := by
    funext l
    rw [diffAddInstr_eq_truthy, diffRemInstr_eq_truthy]
  rw [hfun]

/-- Witness for the amended C1: two single-line listings with different
instructions are disjoint after normalization, and both directions of the
diff agree: `instructions_added` of (A,B) equals `instructions_removed`
of (B,A). -/
theorem claim_C1_amended_witness :
    (∀ l ∈ normalize_assembly ("mov eax, 1".toList),
      l ∉ normalize_assembly ("xor ebx, ebx".toList)) ∧
    (generate_assembly_diff ("mov eax, 1".toList) ("xor ebx, ebx".toList)
        defaultLabel1 defaultLabel2 3).statistics.instructions_added =
    (generate_assembly_diff ("xor ebx, ebx".toList) ("mov eax, 1".toList)
        defaultLabel1 defaultLabel2 3).statistics.instructions_removed :=
  ⟨by decide, claim_C1_amended ("mov eax, 1".toList) ("xor ebx, ebx".toList)
    (by decide)⟩

end CeMcp
